import Mathlib

/-!
Verification development for the s-expr crate: a shallow embedding of the
tokenizer (src/tokenizer.rs), the group-balancing parser (src/parser.rs),
the position tracker (src/loc.rs) and the numeric atom accessors
(src/data.rs), together with theorems settling the specification claims.

Modelling conventions.  The Rust tokenizer takes a `&str`, so its byte
buffer is always valid UTF-8 and the manual UTF-8 decoder (src/utf8.rs)
can never fail; accordingly the input is embedded as a `List Char` of
Unicode scalar values and `peek_char` becomes list head inspection, with
every successful decode advancing by exactly one character.  Byte indices
into the buffer are replaced by the remaining-suffix representation: each
scanning function returns the characters it consumed (the counterpart of
`slice_from`) together with the unconsumed suffix and the updated
`Position`.  Rust strings borrowed from the input are embedded as
`List Char`.  The crate is built without the optional `unicode` feature,
so `is_id_start` and `is_id_continue` use the ASCII rules of
src/tokenizer.rs lines 451-454 and 466-469; every character on which a
claim below depends is classified identically under both feature variants.
-/

namespace SExpr

/-- A file position, line starting at 1 and column at 0 (src/loc.rs). -/
structure Position where
  line : Nat
  col : Nat
deriving DecidableEq

/-- The `Default` instance of `Position` in src/loc.rs. -/
def Position.default : Position := ⟨1, 0⟩

/-- `Position::advance`: a newline advances the line and resets the
column, any other character advances the column (src/loc.rs). -/
def Position.advance (p : Position) (c : Char) : Position :=
  if c = '\n' then ⟨p.line + 1, 0⟩ else ⟨p.line, p.col + 1⟩

/-- A span between two positions (src/loc.rs).  The Rust field `end` is a
Lean keyword and is rendered `stop`. -/
structure Span where
  start : Position
  stop : Position
deriving DecidableEq

/-- `Span::extend` (src/loc.rs). -/
def Span.extend (s other : Span) : Span := ⟨s.start, other.stop⟩

/-- A value together with its span (src/loc.rs). -/
structure Spanned (α : Type) where
  span : Span
  inner : α
deriving DecidableEq

/-- The kind of a delimiter group (src/data.rs). -/
inductive GroupKind
  | Paren
  | Brace
  | Bracket
deriving DecidableEq

/-- Supported number bases (src/data.rs). -/
inductive ANumBase
  | Binary
  | Decimal
  | Hexadecimal
deriving DecidableEq

/-- `ANumBase::to_radix` (src/data.rs). -/
def ANumBase.to_radix : ANumBase → Nat
  | .Binary => 2
  | .Decimal => 10
  | .Hexadecimal => 16

/-- An integral number literal: base and raw digit text (src/data.rs). -/
structure ANum where
  base : ANumBase
  dat : List Char
deriving DecidableEq

/-- A decimal number literal, raw integral and fractional texts
(src/data.rs). -/
structure ADecimal where
  raw_integral : List Char
  raw_fractional : List Char
deriving DecidableEq

/-- A string literal: escape marker and the raw text between the quotes
(src/data.rs). -/
structure AStr where
  has_escape : Bool
  raw_data : List Char
deriving DecidableEq

/-- A bytes literal: the raw hexadecimal text between the `#` delimiters
(src/data.rs, tuple struct `ABytes`). -/
structure ABytes where
  dat : List Char
deriving DecidableEq

/-- Atom literals (src/data.rs). -/
inductive Atom
  | Integral : ANum → Atom
  | Decimal : ADecimal → Atom
  | Bytes : ABytes → Atom
  | String : AStr → Atom
  | Ident : List Char → Atom
deriving DecidableEq

/-- Errors of the UTF-8 decoder (src/utf8.rs).  Unreachable in this
embedding because the input is always a valid character sequence; kept so
that the error taxonomy matches the source. -/
inductive NextCharError
  | EmptyDataStream
  | IncompleteUtf8Sequence : Nat → NextCharError
  | InvalidUtf8Sequence
  | InvalidUtf8ContByte
deriving DecidableEq

/-- Tokenizer errors (src/tokenizer.rs). -/
inductive TokenError
  | DataError : NextCharError → Nat → TokenError
  | UnterminatedString : Position → TokenError
  | UnterminatedBytes : Position → TokenError
  | UnprocessedChar : Char → TokenError
  | UnterminatedBytesChar : Position → Char → TokenError
deriving DecidableEq

/-- Tokens (src/tokenizer.rs). -/
inductive Token
  | Left : GroupKind → Token
  | Right : GroupKind → Token
  | Comment : List Char → Token
  | Atom : Atom → Token
deriving DecidableEq

/-- `Token::is_comment` (src/tokenizer.rs). -/
def Token.is_comment : Token → Bool
  | .Comment _ => true
  | _ => false

/-- Tokenizer configuration flags (src/tokenizer.rs). -/
structure TokenizerConfig where
  filter_comment : Bool
  support_bytes : Bool
  support_brace : Bool
  support_bracket : Bool

/-- The `Default` instance of `TokenizerConfig` (src/tokenizer.rs). -/
def TokenizerConfig.default : TokenizerConfig :=
  { filter_comment := false
    support_bytes := true
    support_brace := true
    support_bracket := true }

/-- Rust `char::is_ascii_digit`. -/
def is_ascii_digit (c : Char) : Bool :=
  48 ≤ c.toNat && c.toNat ≤ 57

/-- Rust `char::is_ascii_hexdigit`. -/
def is_ascii_hexdigit (c : Char) : Bool :=
  is_ascii_digit c || (97 ≤ c.toNat && c.toNat ≤ 102) || (65 ≤ c.toNat && c.toNat ≤ 70)

/-- Rust `char::is_ascii_alphabetic`. -/
def is_ascii_alphabetic (c : Char) : Bool :=
  (65 ≤ c.toNat && c.toNat ≤ 90) || (97 ≤ c.toNat && c.toNat ≤ 122)

/-- The operator identifier characters, the contents of the Rust string
literal in `is_ascii_operator` (src/tokenizer.rs lines 472-475): every
ASCII operator character except the group delimiters, the double quote,
the semicolon and the backslash.  The last two entries are the apostrophe
(39) and the backtick (96). -/
def ascii_operator_chars : List Char :=
  ['?', '!', '#', '@', '$', '+', '-', '*', '/', '=', '<', '>', ',', '.',
   ':', '|', '%', Char.ofNat 94, '&', Char.ofNat 126, Char.ofNat 39, Char.ofNat 96]

/-- `is_ascii_operator` (src/tokenizer.rs). -/
def is_ascii_operator (c : Char) : Bool :=
  ascii_operator_chars.contains c

/-- `is_id_start` without the `unicode` feature (src/tokenizer.rs). -/
def is_id_start (c : Char) : Bool :=
  is_ascii_alphabetic c || c == '_' || is_ascii_operator c

/-- `is_id_continue` without the `unicode` feature (src/tokenizer.rs). -/
def is_id_continue (c : Char) : Bool :=
  is_ascii_alphabetic c || c == '_' || is_ascii_digit c || is_ascii_operator c

/-- Closed range test on code points, helper for `rust_is_numeric`. -/
def inRange (n lo hi : Nat) : Bool :=
  lo ≤ n && n ≤ hi

/-- Rust `char::is_numeric`: true exactly when the character's Unicode
general category is N, the union of Nd (decimal digits), Nl (letter
numbers such as Roman numerals, e.g. `Ⅻ` U+216B) and No (other numbers
such as superscripts and vulgar fractions, e.g. `²` U+00B2 and `¾`
U+00BE).  The table below is the complete list of the N code-point
ranges of Unicode 14.0.0, the character database version shipped by the
Rust toolchains contemporary with this crate; `char::is_numeric` is
itself pinned to the Unicode version of the compiling toolchain, and
this embedding fixes that version to 14.0.0. -/
def rust_is_numeric (c : Char) : Bool :=
  let n := c.toNat
  inRange n 0x30 0x39 || inRange n 0xB2 0xB3 || inRange n 0xB9 0xB9 || inRange n 0xBC 0xBE ||
  inRange n 0x660 0x669 || inRange n 0x6F0 0x6F9 || inRange n 0x7C0 0x7C9 ||
  inRange n 0x966 0x96F || inRange n 0x9E6 0x9EF || inRange n 0x9F4 0x9F9 ||
  inRange n 0xA66 0xA6F || inRange n 0xAE6 0xAEF || inRange n 0xB66 0xB6F ||
  inRange n 0xB72 0xB77 || inRange n 0xBE6 0xBF2 || inRange n 0xC66 0xC6F ||
  inRange n 0xC78 0xC7E || inRange n 0xCE6 0xCEF || inRange n 0xD58 0xD5E ||
  inRange n 0xD66 0xD78 || inRange n 0xDE6 0xDEF || inRange n 0xE50 0xE59 ||
  inRange n 0xED0 0xED9 || inRange n 0xF20 0xF33 || inRange n 0x1040 0x1049 ||
  inRange n 0x1090 0x1099 || inRange n 0x1369 0x137C || inRange n 0x16EE 0x16F0 ||
  inRange n 0x17E0 0x17E9 || inRange n 0x17F0 0x17F9 || inRange n 0x1810 0x1819 ||
  inRange n 0x1946 0x194F || inRange n 0x19D0 0x19DA || inRange n 0x1A80 0x1A89 ||
  inRange n 0x1A90 0x1A99 || inRange n 0x1B50 0x1B59 || inRange n 0x1BB0 0x1BB9 ||
  inRange n 0x1C40 0x1C49 || inRange n 0x1C50 0x1C59 || inRange n 0x2070 0x2070 ||
  inRange n 0x2074 0x2079 || inRange n 0x2080 0x2089 || inRange n 0x2150 0x2182 ||
  inRange n 0x2185 0x2189 || inRange n 0x2460 0x249B || inRange n 0x24EA 0x24FF ||
  inRange n 0x2776 0x2793 || inRange n 0x2CFD 0x2CFD || inRange n 0x3007 0x3007 ||
  inRange n 0x3021 0x3029 || inRange n 0x3038 0x303A || inRange n 0x3192 0x3195 ||
  inRange n 0x3220 0x3229 || inRange n 0x3248 0x324F || inRange n 0x3251 0x325F ||
  inRange n 0x3280 0x3289 || inRange n 0x32B1 0x32BF || inRange n 0xA620 0xA629 ||
  inRange n 0xA6E6 0xA6EF || inRange n 0xA830 0xA835 || inRange n 0xA8D0 0xA8D9 ||
  inRange n 0xA900 0xA909 || inRange n 0xA9D0 0xA9D9 || inRange n 0xA9F0 0xA9F9 ||
  inRange n 0xAA50 0xAA59 || inRange n 0xABF0 0xABF9 || inRange n 0xFF10 0xFF19 ||
  inRange n 0x10107 0x10133 || inRange n 0x10140 0x10178 || inRange n 0x1018A 0x1018B ||
  inRange n 0x102E1 0x102FB || inRange n 0x10320 0x10323 || inRange n 0x10341 0x10341 ||
  inRange n 0x1034A 0x1034A || inRange n 0x103D1 0x103D5 || inRange n 0x104A0 0x104A9 ||
  inRange n 0x10858 0x1085F || inRange n 0x10879 0x1087F || inRange n 0x108A7 0x108AF ||
  inRange n 0x108FB 0x108FF || inRange n 0x10916 0x1091B || inRange n 0x109BC 0x109BD ||
  inRange n 0x109C0 0x109CF || inRange n 0x109D2 0x109FF || inRange n 0x10A40 0x10A48 ||
  inRange n 0x10A7D 0x10A7E || inRange n 0x10A9D 0x10A9F || inRange n 0x10AEB 0x10AEF ||
  inRange n 0x10B58 0x10B5F || inRange n 0x10B78 0x10B7F || inRange n 0x10BA9 0x10BAF ||
  inRange n 0x10CFA 0x10CFF || inRange n 0x10D30 0x10D39 || inRange n 0x10E60 0x10E7E ||
  inRange n 0x10F1D 0x10F26 || inRange n 0x10F51 0x10F54 || inRange n 0x10FC5 0x10FCB ||
  inRange n 0x11052 0x1106F || inRange n 0x110F0 0x110F9 || inRange n 0x11136 0x1113F ||
  inRange n 0x111D0 0x111D9 || inRange n 0x111E1 0x111F4 || inRange n 0x112F0 0x112F9 ||
  inRange n 0x11450 0x11459 || inRange n 0x114D0 0x114D9 || inRange n 0x11650 0x11659 ||
  inRange n 0x116C0 0x116C9 || inRange n 0x11730 0x1173B || inRange n 0x118E0 0x118F2 ||
  inRange n 0x11950 0x11959 || inRange n 0x11C50 0x11C6C || inRange n 0x11D50 0x11D59 ||
  inRange n 0x11DA0 0x11DA9 || inRange n 0x11FC0 0x11FD4 || inRange n 0x12400 0x1246E ||
  inRange n 0x16A60 0x16A69 || inRange n 0x16AC0 0x16AC9 || inRange n 0x16B50 0x16B59 ||
  inRange n 0x16B5B 0x16B61 || inRange n 0x16E80 0x16E96 || inRange n 0x1D2E0 0x1D2F3 ||
  inRange n 0x1D360 0x1D378 || inRange n 0x1D7CE 0x1D7FF || inRange n 0x1E140 0x1E149 ||
  inRange n 0x1E2F0 0x1E2F9 || inRange n 0x1E8C7 0x1E8CF || inRange n 0x1E950 0x1E959 ||
  inRange n 0x1EC71 0x1ECAB || inRange n 0x1ECAD 0x1ECAF || inRange n 0x1ECB1 0x1ECB4 ||
  inRange n 0x1ED01 0x1ED2D || inRange n 0x1ED2F 0x1ED3D || inRange n 0x1F100 0x1F10C ||
  inRange n 0x1FBF0 0x1FBF9

/-- Rust `char::to_digit`: ASCII digits and letters valued below the
radix. -/
def char_to_digit (c : Char) (radix : Nat) : Option Nat :=
  let v : Option Nat :=
    if is_ascii_digit c then some (c.toNat - 48)
    else if 97 ≤ c.toNat ∧ c.toNat ≤ 122 then some (c.toNat - 97 + 10)
    else if 65 ≤ c.toNat ∧ c.toNat ≤ 90 then some (c.toNat - 65 + 10)
    else none
  match v with
  | some v => if v < radix then some v else none
  | none => none

/-- The digit-accumulation loop of Rust `uN::from_str_radix`, with the
checked multiply and add rendered as a bound test: the step succeeds
exactly when the new accumulator still fits the target width, whose
exclusive bound is `bound`. -/
def from_str_radix_go (bound radix : Nat) (acc : Nat) : List Char → Option Nat
  | [] => some acc
  | c :: cs =>
    match char_to_digit c radix with
    | none => none
    | some d =>
      if acc * radix + d < bound then from_str_radix_go bound radix (acc * radix + d) cs
      else none

/-- Rust `uN::from_str_radix` restricted to plain digit strings, which is
the only shape the crate ever feeds it (`ANum::digits` output: no sign,
no leading `+`): the empty string is an error, otherwise every character
must be a digit of the radix and no accumulation step may overflow the
width bound. -/
def from_str_radix (bound radix : Nat) (s : List Char) : Option Nat :=
  match s with
  | [] => none
  | _ => from_str_radix_go bound radix 0 s

/-- `ANum::digits`: the raw text with the `_` separators removed
(src/data.rs). -/
def ANum.digits (n : ANum) : List Char :=
  n.dat.filter (fun c => c != '_')

/-- `ANum::to_u8` (src/data.rs); `some` is Rust `Ok`. -/
def ANum.to_u8 (n : ANum) : Option Nat :=
  from_str_radix (2 ^ 8) n.base.to_radix n.digits

/-- `ANum::to_u16` (src/data.rs). -/
def ANum.to_u16 (n : ANum) : Option Nat :=
  from_str_radix (2 ^ 16) n.base.to_radix n.digits

/-- `ANum::to_u32` (src/data.rs). -/
def ANum.to_u32 (n : ANum) : Option Nat :=
  from_str_radix (2 ^ 32) n.base.to_radix n.digits

/-- `ANum::to_u64` (src/data.rs). -/
def ANum.to_u64 (n : ANum) : Option Nat :=
  from_str_radix (2 ^ 64) n.base.to_radix n.digits

/-- `ANum::to_u128` (src/data.rs). -/
def ANum.to_u128 (n : ANum) : Option Nat :=
  from_str_radix (2 ^ 128) n.base.to_radix n.digits

/-- `ADecimal::integral` (src/data.rs). -/
def ADecimal.integral (d : ADecimal) : List Char :=
  d.raw_integral.filter (fun c => c != '_')

/-- `ADecimal::fractional` (src/data.rs). -/
def ADecimal.fractional (d : ADecimal) : List Char :=
  d.raw_fractional.filter (fun c => c != '_')

/-- True for the whitespace characters skipped by the tokenizer, the
membership test against the Rust string literal in `skip_whitespace`
(src/tokenizer.rs line 173). -/
def is_tok_whitespace (c : Char) : Bool :=
  c == '\n' || c == '\t' || c == ' '

/-- `Tokenizer::skip_whitespace` (src/tokenizer.rs): drop the leading
run of whitespace, advancing the position per character. -/
def skip_whitespace : List Char → Position → List Char × Position
  | [], pos => ([], pos)
  | c :: cs, pos =>
    if is_tok_whitespace c then skip_whitespace cs (pos.advance c)
    else (c :: cs, pos)

/-- `Tokenizer::skip_while` (src/tokenizer.rs): consume the maximal
leading run satisfying `f`.  The consumed run is returned explicitly;
it is the text the Rust caller recovers afterwards with `slice_from`. -/
def skip_while (f : Char → Bool) : List Char → Position → List Char × List Char × Position
  | [], pos => ([], [], pos)
  | c :: cs, pos =>
    if f c then
      let r := skip_while f cs (pos.advance c)
      (c :: r.1, r.2.1, r.2.2)
    else ([], c :: cs, pos)

/-- `Tokenizer::skip_until` (src/tokenizer.rs): consume until `f` holds
or the stream ends. -/
def skip_until (f : Char → Bool) : List Char → Position → List Char × List Char × Position :=
  skip_while (fun c => !f c)

/-- `Tokenizer::string` (src/tokenizer.rs): scan the body of a string
literal after the opening quote.  The two boolean arguments are the
`has_escape` and `escape` mutable flags of the Rust loop.  On success it
returns the final `has_escape`, the raw text before the closing quote,
the suffix after the closing quote and the position after the closing
quote; at end of stream it fails with the position reached. -/
def string_body (hasEsc esc : Bool) : List Char → Position → Except TokenError (Bool × List Char × List Char × Position)
  | [], pos => .error (.UnterminatedString pos)
  | c :: cs, pos =>
    if esc then
      match string_body hasEsc false cs (pos.advance c) with
      | .error e => .error e
      | .ok (h, t, r, p) => .ok (h, c :: t, r, p)
    else if c = '\\' then
      match string_body true true cs (pos.advance c) with
      | .error e => .error e
      | .ok (h, t, r, p) => .ok (h, c :: t, r, p)
    else if c = '"' then .ok (hasEsc, [], cs, pos.advance c)
    else
      match string_body hasEsc false cs (pos.advance c) with
      | .error e => .error e
      | .ok (h, t, r, p) => .ok (h, c :: t, r, p)

/-- `Tokenizer::bytes` (src/tokenizer.rs): after the opening `#`, a
maximal run of ASCII hex digits, then a mandatory closing `#`. -/
def bytes_body (l : List Char) (pos : Position) : Except TokenError (List Char × List Char × Position) :=
  let r := skip_while is_ascii_hexdigit l pos
  match r.2.1 with
  | [] => .error (.UnterminatedBytes r.2.2)
  | c :: cs =>
    if c = '#' then .ok (r.1, cs, (r.2.2).advance c)
    else .error (.UnterminatedBytesChar r.2.2 c)

/-- `Tokenizer::number` (src/tokenizer.rs): scan the remainder of a
number whose leading ASCII digit `leading_char` has already been
consumed; `l` and `pos` are the stream right after it.  The returned
`ANum.dat` reproduces the `slice_from` boundaries of the source: for a
decimal literal the slice starts before the leading character, for a
binary or hexadecimal literal it starts after the `b`/`x` prefix. -/
def number (leading_char : Char) (l : List Char) (pos : Position) : ANum × List Char × Position :=
  match l with
  | [] => (⟨.Decimal, [leading_char]⟩, [], pos)
  | ch :: cs =>
    if leading_char = '0' then
      if ch = 'b' then
        let r := skip_while (fun c => c == '0' || c == '1' || c == '_') cs (pos.advance ch)
        (⟨.Binary, r.1⟩, r.2.1, r.2.2)
      else if ch = 'x' then
        let r := skip_while (fun c => is_ascii_hexdigit c || c == '_') cs (pos.advance ch)
        (⟨.Hexadecimal, r.1⟩, r.2.1, r.2.2)
      else if is_ascii_digit ch then
        let r := skip_while (fun c => rust_is_numeric c || c == '_') cs (pos.advance ch)
        (⟨.Decimal, leading_char :: ch :: r.1⟩, r.2.1, r.2.2)
      else (⟨.Decimal, [leading_char]⟩, ch :: cs, pos)
    else
      if is_ascii_digit ch then
        let r := skip_while (fun c => rust_is_numeric c || c == '_') cs (pos.advance ch)
        (⟨.Decimal, leading_char :: ch :: r.1⟩, r.2.1, r.2.2)
      else (⟨.Decimal, [leading_char]⟩, ch :: cs, pos)

/-- `Tokenizer::next_cont` (src/tokenizer.rs): lex one token whose
leading character has already been consumed.  `token_start` is the
position of the leading character, `pos` the position right after it and
`l` the unconsumed suffix.  Each success pairs the spanned token with
the suffix and position after it, mirroring `stok`. -/
def next_cont (cfg : TokenizerConfig) (token_start : Position) (leading_char : Char)
    (l : List Char) (pos : Position) : Except TokenError (Spanned Token × List Char × Position) :=
  if leading_char = '(' then
    .ok (⟨⟨token_start, pos⟩, .Left .Paren⟩, l, pos)
  else if leading_char = ')' then
    .ok (⟨⟨token_start, pos⟩, .Right .Paren⟩, l, pos)
  else if cfg.support_bracket && leading_char == '[' then
    .ok (⟨⟨token_start, pos⟩, .Left .Bracket⟩, l, pos)
  else if cfg.support_bracket && leading_char == ']' then
    .ok (⟨⟨token_start, pos⟩, .Right .Bracket⟩, l, pos)
  else if cfg.support_brace && leading_char == '{' then
    .ok (⟨⟨token_start, pos⟩, .Left .Brace⟩, l, pos)
  else if cfg.support_brace && leading_char == '}' then
    .ok (⟨⟨token_start, pos⟩, .Right .Brace⟩, l, pos)
  else if leading_char = ';' then
    let r := skip_until (fun c => c == '\n') l pos
    .ok (⟨⟨token_start, r.2.2⟩, .Comment (leading_char :: r.1)⟩, r.2.1, r.2.2)
  else if leading_char = '"' then
    match string_body false false l pos with
    | .error e => .error e
    | .ok (h, t, r, p) => .ok (⟨⟨token_start, p⟩, .Atom (.String ⟨h, t⟩)⟩, r, p)
  else if cfg.support_bytes && leading_char == '#' then
    match bytes_body l pos with
    | .error e => .error e
    | .ok (t, r, p) => .ok (⟨⟨token_start, p⟩, .Atom (.Bytes ⟨t⟩)⟩, r, p)
  else if is_ascii_digit leading_char then
    let n := number leading_char l pos
    if n.1.base = ANumBase.Decimal then
      match n.2.1 with
      | c :: cs =>
        if c = '.' then
          let fr := skip_while is_ascii_digit cs ((n.2.2).advance c)
          .ok (⟨⟨token_start, fr.2.2⟩, .Atom (.Decimal ⟨n.1.dat, fr.1⟩)⟩, fr.2.1, fr.2.2)
        else .ok (⟨⟨token_start, n.2.2⟩, .Atom (.Integral n.1)⟩, c :: cs, n.2.2)
      | [] => .ok (⟨⟨token_start, n.2.2⟩, .Atom (.Integral n.1)⟩, [], n.2.2)
    else .ok (⟨⟨token_start, n.2.2⟩, .Atom (.Integral n.1)⟩, n.2.1, n.2.2)
  else if is_id_start leading_char then
    let r := skip_while is_id_continue l pos
    .ok (⟨⟨token_start, r.2.2⟩, .Atom (.Ident (leading_char :: r.1))⟩, r.2.1, r.2.2)
  else .error (.UnprocessedChar leading_char)

/-- `Tokenizer::next` (src/tokenizer.rs), fueled: skip whitespace, peek
the leading character, lex one token with `next_cont`, and loop when the
token is a comment and the configuration filters comments.  Each loop
iteration consumes at least one character, so any fuel above the length
of the remaining input is enough; the fuel-exhaustion branch is
unreachable from the wrapper `tokenizer_next` below. -/
def tokenizer_next_go (cfg : TokenizerConfig) : Nat → List Char → Position → Except TokenError (Option (Spanned Token) × List Char × Position)
  | 0, l, pos => .ok (none, l, pos)
  | fuel + 1, l, pos =>
    let w := skip_whitespace l pos
    match w.1 with
    | [] => .ok (none, [], w.2)
    | c :: cs =>
      match next_cont cfg w.2 c cs (w.2.advance c) with
      | .error e => .error e
      | .ok (tok, r, p) =>
        if tok.inner.is_comment && cfg.filter_comment then tokenizer_next_go cfg fuel r p
        else .ok (some tok, r, p)

/-- `Tokenizer::next`: the fueled loop run with ample fuel. -/
def tokenizer_next (cfg : TokenizerConfig) (l : List Char) (pos : Position) : Except TokenError (Option (Spanned Token) × List Char × Position) :=
  tokenizer_next_go cfg (l.length + 1) l pos

/-- The stream of all tokens `Tokenizer::next` yields when called
repeatedly, with the error that ends the stream, if any (fueled). -/
def token_stream_go (cfg : TokenizerConfig) : Nat → List Char → Position → List (Spanned Token) × Option TokenError
  | 0, _, _ => ([], none)
  | fuel + 1, l, pos =>
    match tokenizer_next cfg l pos with
    | .error e => ([], some e)
    | .ok (none, _, _) => ([], none)
    | .ok (some t, r, p) =>
      let s := token_stream_go cfg fuel r p
      (t :: s.1, s.2)

/-- The full token stream, run with ample fuel. -/
def token_stream (cfg : TokenizerConfig) (l : List Char) (pos : Position) : List (Spanned Token) × Option TokenError :=
  token_stream_go cfg (l.length + 1) l pos

/-- S-expression elements (src/parser.rs). -/
inductive Element
  | Group : GroupKind → List (Spanned Element) → Element
  | Atom : Atom → Element
  | Comment : List Char → Element

/-- Parser errors (src/parser.rs).  `UnbalancedMismatch` carries the
span, the expected kind and the kind actually found, in this order. -/
inductive ParserError
  | UnbalancedEmpty : Position → GroupKind → ParserError
  | UnbalancedMismatch : Span → GroupKind → GroupKind → ParserError
  | UnfinishedGroup : GroupKind → ParserError
  | TokenizerError : TokenError → ParserError

/-- A frame of the parser's explicit group stack: the open delimiter's
kind, its span and the accumulated children (src/parser.rs).  The head
of the frame list is the innermost (most recently opened) group. -/
abbrev Frame := GroupKind × Span × List (Spanned Element)

/-- The loop body of `Parser::next` (src/parser.rs), fueled: drive the
tokenizer, returning the first completed top-level element.  Atoms and
comments close immediately when the stack is empty, otherwise they join
the innermost frame's children; an opening delimiter pushes a frame; a
closing delimiter pops one, checking the kinds agree.  Every iteration
consumes at least one token, hence at least one character, so any fuel
above the remaining length suffices; the fuel-exhaustion branch is
unreachable from the wrappers below. -/
def parser_loop_go (cfg : TokenizerConfig) : Nat → List Char → Position → List Frame → Except ParserError (Option (Spanned Element) × List Char × Position)
  | 0, l, pos, _ => .ok (none, l, pos)
  | fuel + 1, l, pos, out =>
    match tokenizer_next cfg l pos with
    | .error e => .error (.TokenizerError e)
    | .ok (none, r, p) =>
      match out with
      | [] => .ok (none, r, p)
      | (grp, _, _) :: _ => .error (.UnfinishedGroup grp)
    | .ok (some tok, r, p) =>
      match tok.inner with
      | .Comment c =>
        match out with
        | [] => .ok (some ⟨tok.span, .Comment c⟩, r, p)
        | (g, sp, els) :: rest =>
          parser_loop_go cfg fuel r p ((g, sp, els ++ [⟨tok.span, .Comment c⟩]) :: rest)
      | .Atom a =>
        match out with
        | [] => .ok (some ⟨tok.span, .Atom a⟩, r, p)
        | (g, sp, els) :: rest =>
          parser_loop_go cfg fuel r p ((g, sp, els ++ [⟨tok.span, .Atom a⟩]) :: rest)
      | .Left g =>
        parser_loop_go cfg fuel r p ((g, tok.span, []) :: out)
      | .Right g =>
        match out with
        | [] => .error (.UnbalancedEmpty tok.span.start g)
        | (ig, isp, iels) :: rest =>
          if ig = g then
            match rest with
            | [] => .ok (some ⟨isp.extend tok.span, .Group g iels⟩, r, p)
            | (g2, sp2, els2) :: rest2 =>
              parser_loop_go cfg fuel r p ((g2, sp2, els2 ++ [⟨isp.extend tok.span, .Group g iels⟩]) :: rest2)
          else .error (.UnbalancedMismatch (isp.extend tok.span) ig g)

/-- The parser loop started from an arbitrary stack, with ample fuel. -/
def parser_loop (cfg : TokenizerConfig) (l : List Char) (pos : Position) (out : List Frame) : Except ParserError (Option (Spanned Element) × List Char × Position) :=
  parser_loop_go cfg (l.length + 1) l pos out

/-- `Parser::next` (src/parser.rs): the loop starts from a fresh empty
stack on every call. -/
def parser_next (cfg : TokenizerConfig) (l : List Char) (pos : Position) : Except ParserError (Option (Spanned Element) × List Char × Position) :=
  parser_loop cfg l pos []

/-- The stream of all top-level elements `Parser::next` yields when
called repeatedly, with the error that ends the stream, if any
(fueled). -/
def element_stream_go (cfg : TokenizerConfig) : Nat → List Char → Position → List (Spanned Element) × Option ParserError
  | 0, _, _ => ([], none)
  | fuel + 1, l, pos =>
    match parser_next cfg l pos with
    | .error e => ([], some e)
    | .ok (none, _, _) => ([], none)
    | .ok (some el, r, p) =>
      let s := element_stream_go cfg fuel r p
      (el :: s.1, s.2)

/-- The full element stream, run with ample fuel. -/
def element_stream (cfg : TokenizerConfig) (l : List Char) (pos : Position) : List (Spanned Element) × Option ParserError :=
  element_stream_go cfg (l.length + 1) l pos

/-- The position reached after consuming a list of characters. -/
def advanceList (pos : Position) (cs : List Char) : Position :=
  cs.foldl Position.advance pos

/-- The lexicographic order on positions: line first, then column. -/
def posLe (a b : Position) : Prop :=
  a.line < b.line ∨ (a.line = b.line ∧ a.col ≤ b.col)

/-- The base-10 numeric value of a string of ASCII digits, most
significant digit first: the value a reader assigns to a decimal
literal. -/
def decimal_value (ds : List Char) : Nat :=
  ds.foldl (fun a c => a * 10 + (c.toNat - 48)) 0

/-- Every span in an element tree is well formed: its start does not
exceed its stop in the lexicographic position order, recursively
through group children. -/
inductive ElementSpansWF : Spanned Element → Prop
  | atom (sp : Span) (a : Atom) : posLe sp.start sp.stop → ElementSpansWF ⟨sp, .Atom a⟩
  | comment (sp : Span) (cm : List Char) : posLe sp.start sp.stop → ElementSpansWF ⟨sp, .Comment cm⟩
  | group (sp : Span) (g : GroupKind) (els : List (Spanned Element)) :
      posLe sp.start sp.stop → (∀ e ∈ els, ElementSpansWF e) → ElementSpansWF ⟨sp, .Group g els⟩

/-- The opening delimiter character of a group kind. -/
def openChar : GroupKind → Char
  | .Paren => '('
  | .Brace => '{'
  | .Bracket => '['

/-- The closing delimiter character of a group kind. -/
def closeChar : GroupKind → Char
  | .Paren => ')'
  | .Brace => '}'
  | .Bracket => ']'

/-- The properly nested words over typed delimiters: the language of the
grammar S = empty | openChar k, S, closeChar k, S.  A word is in it
exactly when every open delimiter is matched by a close of the same
GroupKind with correct nesting. -/
inductive Balanced : List Char → Prop
  | nil : Balanced []
  | grp (k : GroupKind) (w1 w2 : List Char) :
      Balanced w1 → Balanced w2 → Balanced (openChar k :: w1 ++ closeChar k :: w2)

theorem advanceList_nil (pos : Position) : advanceList pos [] = pos := rfl

theorem advanceList_cons (pos : Position) (c : Char) (cs : List Char) :
    advanceList pos (c :: cs) = advanceList (pos.advance c) cs := rfl

theorem advanceList_append (pos : Position) (a b : List Char) :
    advanceList pos (a ++ b) = advanceList (advanceList pos a) b := by
  simp [advanceList, List.foldl_append]

theorem posLe_refl (a : Position) : posLe a a := Or.inr ⟨rfl, le_refl _⟩

theorem posLe_trans {a b c : Position} (h1 : posLe a b) (h2 : posLe b c) : posLe a c := by
  unfold posLe at h1 h2 ⊢
  omega

theorem posLe_advance (p : Position) (c : Char) : posLe p (p.advance c) := by
  by_cases h : c = '\n' <;> simp [Position.advance, posLe, h]

theorem posLe_advanceList (p : Position) (cs : List Char) : posLe p (advanceList p cs) := by
  induction cs generalizing p with
  | nil => exact posLe_refl p
  | cons c cs ih =>
    rw [advanceList_cons]
    exact posLe_trans (posLe_advance p c) (ih _)

theorem skip_whitespace_decomp {l r : List Char} {pos p : Position}
    (h : skip_whitespace l pos = (r, p)) :
    ∃ t, l = t ++ r ∧ p = advanceList pos t := by
  induction l generalizing pos with
  | nil =>
    simp only [skip_whitespace, Prod.mk.injEq] at h
    obtain ⟨rfl, rfl⟩ := h
    exact ⟨[], rfl, rfl⟩
  | cons c cs ih =>
    by_cases hc : is_tok_whitespace c
    · rw [skip_whitespace, if_pos hc] at h
      obtain ⟨t, ht, hp⟩ := ih h
      exact ⟨c :: t, by simp [ht], by simp [advanceList_cons, hp]⟩
    · rw [skip_whitespace, if_neg hc] at h
      simp only [Prod.mk.injEq] at h
      obtain ⟨rfl, rfl⟩ := h
      exact ⟨[], rfl, rfl⟩

theorem skip_while_decomp {f : Char → Bool} {l t r : List Char} {pos p : Position}
    (h : skip_while f l pos = (t, r, p)) :
    l = t ++ r ∧ p = advanceList pos t ∧ (∀ c ∈ t, f c = true) ∧
      (∀ c, r.head? = some c → f c = false) := by
  induction l generalizing pos t with
  | nil =>
    simp only [skip_while, Prod.mk.injEq] at h
    obtain ⟨rfl, rfl, rfl⟩ := h
    exact ⟨rfl, rfl, by simp, by simp⟩
  | cons c cs ih =>
    by_cases hc : f c
    · rcases hX : skip_while f cs (pos.advance c) with ⟨t', r', p'⟩
      rw [skip_while, if_pos hc, hX] at h
      simp only [Prod.mk.injEq] at h
      obtain ⟨rfl, rfl, rfl⟩ := h
      obtain ⟨h1, h2, h3, h4⟩ := ih hX
      refine ⟨by simp [h1], by simp [advanceList_cons, h2], ?_, h4⟩
      intro x hx
      rcases List.mem_cons.mp hx with rfl | hx
      · exact hc
      · exact h3 x hx
    · rw [skip_while, if_neg hc] at h
      simp only [Prod.mk.injEq] at h
      obtain ⟨rfl, rfl, rfl⟩ := h
      refine ⟨rfl, rfl, by simp, ?_⟩
      intro x hx
      simp only [List.head?_cons, Option.some.injEq] at hx
      subst hx
      simpa using hc

theorem skip_while_full {f : Char → Bool} {a b : List Char} (pos : Position)
    (ha : ∀ c ∈ a, f c = true) (hb : ∀ c, b.head? = some c → f c = false) :
    skip_while f (a ++ b) pos = (a, b, advanceList pos a) := by
  induction a generalizing pos with
  | nil =>
    cases b with
    | nil => rfl
    | cons c cs =>
      have := hb c (by simp)
      simp [skip_while, this, advanceList_nil]
  | cons c cs ih =>
    have hc : f c = true := ha c (by simp)
    have hrec := ih (pos.advance c) (fun x hx => ha x (by simp [hx]))
    simp only [List.cons_append, skip_while, hc, if_true, List.append_eq]
    rw [hrec]
    simp [advanceList_cons]

theorem string_body_ok_decomp {h0 e0 hE : Bool} {l t r : List Char} {pos p : Position}
    (h : string_body h0 e0 l pos = .ok (hE, t, r, p)) :
    ∃ u, l = u ++ r ∧ p = advanceList pos u := by
  induction l generalizing pos h0 e0 hE t with
  | nil => simp [string_body] at h
  | cons c cs ih =>
    rw [string_body] at h
    by_cases he : e0
    · rw [if_pos he] at h
      rcases hrec : string_body h0 false cs (pos.advance c) with er | ⟨h', t', r', p'⟩ <;> rw [hrec] at h
      · exact absurd h (by simp)
      · simp only [Except.ok.injEq, Prod.mk.injEq] at h
        obtain ⟨rfl, rfl, rfl, rfl⟩ := h
        obtain ⟨u, hu, hp⟩ := ih hrec
        exact ⟨c :: u, by simp [hu], by simp [advanceList_cons, hp]⟩
    · rw [if_neg he] at h
      by_cases hbs : c = '\\'
      · rw [if_pos hbs] at h
        rcases hrec : string_body true true cs (pos.advance c) with er | ⟨h', t', r', p'⟩ <;> rw [hrec] at h
        · exact absurd h (by simp)
        · simp only [Except.ok.injEq, Prod.mk.injEq] at h
          obtain ⟨rfl, rfl, rfl, rfl⟩ := h
          obtain ⟨u, hu, hp⟩ := ih hrec
          exact ⟨c :: u, by simp [hu], by simp [advanceList_cons, hp]⟩
      · rw [if_neg hbs] at h
        by_cases hq : c = '"'
        · rw [if_pos hq] at h
          simp only [Except.ok.injEq, Prod.mk.injEq] at h
          obtain ⟨rfl, rfl, rfl, rfl⟩ := h
          exact ⟨[c], rfl, rfl⟩
        · rw [if_neg hq] at h
          rcases hrec : string_body h0 false cs (pos.advance c) with er | ⟨h', t', r', p'⟩ <;> rw [hrec] at h
          · exact absurd h (by simp)
          · simp only [Except.ok.injEq, Prod.mk.injEq] at h
            obtain ⟨rfl, rfl, rfl, rfl⟩ := h
            obtain ⟨u, hu, hp⟩ := ih hrec
            exact ⟨c :: u, by simp [hu], by simp [advanceList_cons, hp]⟩

theorem string_body_error {h0 e0 : Bool} {l : List Char} {pos : Position} {er : TokenError}
    (h : string_body h0 e0 l pos = .error er) :
    er = .UnterminatedString (advanceList pos l) := by
  induction l generalizing pos h0 e0 with
  | nil =>
    simp only [string_body, Except.error.injEq] at h
    simp [← h, advanceList_nil]
  | cons c cs ih =>
    rw [string_body] at h
    by_cases he : e0
    · rw [if_pos he] at h
      rcases hrec : string_body h0 false cs (pos.advance c) with er' | ok4 <;> rw [hrec] at h
      · simp only [Except.error.injEq] at h
        subst h
        rw [advanceList_cons]
        exact ih hrec
      · exact absurd h (by simp)
    · rw [if_neg he] at h
      by_cases hbs : c = '\\'
      · rw [if_pos hbs] at h
        rcases hrec : string_body true true cs (pos.advance c) with er' | ok4 <;> rw [hrec] at h
        · simp only [Except.error.injEq] at h
          subst h
          rw [advanceList_cons]
          exact ih hrec
        · exact absurd h (by simp)
      · rw [if_neg hbs] at h
        by_cases hq : c = '"'
        · rw [if_pos hq] at h
          exact absurd h (by simp)
        · rw [if_neg hq] at h
          rcases hrec : string_body h0 false cs (pos.advance c) with er' | ok4 <;> rw [hrec] at h
          · simp only [Except.error.injEq] at h
            subst h
            rw [advanceList_cons]
            exact ih hrec
          · exact absurd h (by simp)

theorem bytes_body_ok_decomp {l t r : List Char} {pos p : Position}
    (h : bytes_body l pos = .ok (t, r, p)) :
    ∃ u, l = u ++ r ∧ p = advanceList pos u := by
  rcases hS : skip_while is_ascii_hexdigit l pos with ⟨t', r', p'⟩
  obtain ⟨h1, h2, h3, h4⟩ := skip_while_decomp hS
  simp only [bytes_body, hS] at h
  cases r' with
  | nil => exact absurd h (by simp)
  | cons c cs =>
    dsimp only at h
    by_cases hc : c = '#'
    · rw [if_pos hc] at h
      simp only [Except.ok.injEq, Prod.mk.injEq] at h
      obtain ⟨rfl, rfl, rfl⟩ := h
      refine ⟨t' ++ [c], by simp [h1], ?_⟩
      rw [advanceList_append, ← h2]
      rfl
    · rw [if_neg hc] at h
      exact absurd h (by simp)

theorem bytes_body_error_shape {l : List Char} {pos : Position} {e : TokenError}
    (h : bytes_body l pos = .error e) :
    (∃ q, e = .UnterminatedBytes q) ∨ (∃ q c, e = .UnterminatedBytesChar q c) := by
  rcases hS : skip_while is_ascii_hexdigit l pos with ⟨t', r', p'⟩
  simp only [bytes_body, hS] at h
  cases r' with
  | nil =>
    dsimp only at h
    simp only [Except.error.injEq] at h
    exact Or.inl ⟨p', h.symm⟩
  | cons c cs =>
    dsimp only at h
    by_cases hc : c = '#'
    · rw [if_pos hc] at h
      exact absurd h (by simp)
    · rw [if_neg hc] at h
      simp only [Except.error.injEq] at h
      exact Or.inr ⟨p', c, h.symm⟩

theorem number_decomp {lc : Char} {l r : List Char} {pos p : Position} {n : ANum}
    (h : number lc l pos = (n, r, p)) :
    ∃ u, l = u ++ r ∧ p = advanceList pos u := by
  cases l with
  | nil =>
    simp only [number, Prod.mk.injEq] at h
    obtain ⟨rfl, rfl, rfl⟩ := h
    exact ⟨[], rfl, rfl⟩
  | cons ch cs =>
    rw [number] at h
    by_cases h0 : lc = '0'
    · rw [if_pos h0] at h
      by_cases hb : ch = 'b'
      · rw [if_pos hb] at h
        rcases hS : skip_while (fun c => c == '0' || c == '1' || c == '_') cs (pos.advance ch) with ⟨t', r', p'⟩
        rw [hS] at h
        simp only [Prod.mk.injEq] at h
        obtain ⟨rfl, rfl, rfl⟩ := h
        obtain ⟨h1, h2, -, -⟩ := skip_while_decomp hS
        exact ⟨ch :: t', by simp [h1], by simp [advanceList_cons, h2]⟩
      · rw [if_neg hb] at h
        by_cases hx : ch = 'x'
        · rw [if_pos hx] at h
          rcases hS : skip_while (fun c => is_ascii_hexdigit c || c == '_') cs (pos.advance ch) with ⟨t', r', p'⟩
          rw [hS] at h
          simp only [Prod.mk.injEq] at h
          obtain ⟨rfl, rfl, rfl⟩ := h
          obtain ⟨h1, h2, -, -⟩ := skip_while_decomp hS
          exact ⟨ch :: t', by simp [h1], by simp [advanceList_cons, h2]⟩
        · rw [if_neg hx] at h
          by_cases hd : is_ascii_digit ch
          · rw [if_pos hd] at h
            rcases hS : skip_while (fun c => rust_is_numeric c || c == '_') cs (pos.advance ch) with ⟨t', r', p'⟩
            rw [hS] at h
            simp only [Prod.mk.injEq] at h
            obtain ⟨rfl, rfl, rfl⟩ := h
            obtain ⟨h1, h2, -, -⟩ := skip_while_decomp hS
            exact ⟨ch :: t', by simp [h1], by simp [advanceList_cons, h2]⟩
          · rw [if_neg hd] at h
            simp only [Prod.mk.injEq] at h
            obtain ⟨rfl, rfl, rfl⟩ := h
            exact ⟨[], rfl, rfl⟩
    · rw [if_neg h0] at h
      by_cases hd : is_ascii_digit ch
      · rw [if_pos hd] at h
        rcases hS : skip_while (fun c => rust_is_numeric c || c == '_') cs (pos.advance ch) with ⟨t', r', p'⟩
        rw [hS] at h
        simp only [Prod.mk.injEq] at h
        obtain ⟨rfl, rfl, rfl⟩ := h
        obtain ⟨h1, h2, -, -⟩ := skip_while_decomp hS
        exact ⟨ch :: t', by simp [h1], by simp [advanceList_cons, h2]⟩
      · rw [if_neg hd] at h
        simp only [Prod.mk.injEq] at h
        obtain ⟨rfl, rfl, rfl⟩ := h
        exact ⟨[], rfl, rfl⟩

theorem next_cont_ok {cfg : TokenizerConfig} {ts : Position} {lc : Char} {l r : List Char}
    {pos p : Position} {st : Spanned Token}
    (h : next_cont cfg ts lc l pos = .ok (st, r, p)) :
    (∃ u, l = u ++ r ∧ p = advanceList pos u) ∧ st.span.start = ts ∧ st.span.stop = p := by
  rw [next_cont.eq_def] at h
  by_cases q1 : lc = '('
  · rw [if_pos q1] at h
    simp only [Except.ok.injEq, Prod.mk.injEq] at h
    obtain ⟨rfl, rfl, rfl⟩ := h
    exact ⟨⟨[], rfl, rfl⟩, rfl, rfl⟩
  rw [if_neg q1] at h
  by_cases q2 : lc = ')'
  · rw [if_pos q2] at h
    simp only [Except.ok.injEq, Prod.mk.injEq] at h
    obtain ⟨rfl, rfl, rfl⟩ := h
    exact ⟨⟨[], rfl, rfl⟩, rfl, rfl⟩
  rw [if_neg q2] at h
  by_cases q3 : (cfg.support_bracket && lc == '[') = true
  · rw [if_pos q3] at h
    simp only [Except.ok.injEq, Prod.mk.injEq] at h
    obtain ⟨rfl, rfl, rfl⟩ := h
    exact ⟨⟨[], rfl, rfl⟩, rfl, rfl⟩
  rw [if_neg q3] at h
  by_cases q4 : (cfg.support_bracket && lc == ']') = true
  · rw [if_pos q4] at h
    simp only [Except.ok.injEq, Prod.mk.injEq] at h
    obtain ⟨rfl, rfl, rfl⟩ := h
    exact ⟨⟨[], rfl, rfl⟩, rfl, rfl⟩
  rw [if_neg q4] at h
  by_cases q5 : (cfg.support_brace && lc == '{') = true
  · rw [if_pos q5] at h
    simp only [Except.ok.injEq, Prod.mk.injEq] at h
    obtain ⟨rfl, rfl, rfl⟩ := h
    exact ⟨⟨[], rfl, rfl⟩, rfl, rfl⟩
  rw [if_neg q5] at h
  by_cases q6 : (cfg.support_brace && lc == '}') = true
  · rw [if_pos q6] at h
    simp only [Except.ok.injEq, Prod.mk.injEq] at h
    obtain ⟨rfl, rfl, rfl⟩ := h
    exact ⟨⟨[], rfl, rfl⟩, rfl, rfl⟩
  rw [if_neg q6] at h
  by_cases q7 : lc = ';'
  · rw [if_pos q7] at h
    rcases hS : skip_until (fun c => c == '\n') l pos with ⟨t', r', p'⟩
    rw [hS] at h
    dsimp only at h
    simp only [Except.ok.injEq, Prod.mk.injEq] at h
    obtain ⟨rfl, rfl, rfl⟩ := h
    have hS' : skip_while (fun c => !(c == '\n')) l pos = (t', r', p') := hS
    obtain ⟨h1, h2, -, -⟩ := skip_while_decomp hS'
    exact ⟨⟨t', h1, h2⟩, rfl, rfl⟩
  rw [if_neg q7] at h
  by_cases q8 : lc = '"'
  · rw [if_pos q8] at h
    rcases hB : string_body false false l pos with e | ⟨hE, t', r', p'⟩ <;> rw [hB] at h
    · exact absurd h (by simp)
    · simp only [Except.ok.injEq, Prod.mk.injEq] at h
      obtain ⟨rfl, rfl, rfl⟩ := h
      obtain ⟨u, hu, hp⟩ := string_body_ok_decomp hB
      exact ⟨⟨u, hu, hp⟩, rfl, rfl⟩
  rw [if_neg q8] at h
  by_cases q9 : (cfg.support_bytes && lc == '#') = true
  · rw [if_pos q9] at h
    rcases hB : bytes_body l pos with e | ⟨t', r', p'⟩ <;> rw [hB] at h
    · exact absurd h (by simp)
    · simp only [Except.ok.injEq, Prod.mk.injEq] at h
      obtain ⟨rfl, rfl, rfl⟩ := h
      obtain ⟨u, hu, hp⟩ := bytes_body_ok_decomp hB
      exact ⟨⟨u, hu, hp⟩, rfl, rfl⟩
  rw [if_neg q9] at h
  by_cases q10 : is_ascii_digit lc = true
  · rw [if_pos q10] at h
    rcases hN : number lc l pos with ⟨n', r1, p1⟩
    rw [hN] at h
    dsimp only at h
    obtain ⟨uN, huN, hpN⟩ := number_decomp hN
    by_cases qD : n'.base = ANumBase.Decimal
    · rw [if_pos qD] at h
      cases r1 with
      | nil =>
        simp only [Except.ok.injEq, Prod.mk.injEq] at h
        obtain ⟨rfl, rfl, rfl⟩ := h
        exact ⟨⟨uN, huN, hpN⟩, rfl, rfl⟩
      | cons c cs =>
        dsimp only at h
        by_cases qDot : c = '.'
        · rw [if_pos qDot] at h
          rcases hF : skip_while is_ascii_digit cs (p1.advance c) with ⟨tF, rF, pF⟩
          rw [hF] at h
          dsimp only at h
          simp only [Except.ok.injEq, Prod.mk.injEq] at h
          obtain ⟨rfl, rfl, rfl⟩ := h
          obtain ⟨hF1, hF2, -, -⟩ := skip_while_decomp hF
          refine ⟨⟨uN ++ c :: tF, ?_, ?_⟩, rfl, rfl⟩
          · rw [huN, hF1]
            simp
          · rw [advanceList_append, ← hpN, advanceList_cons, ← hF2]
        · rw [if_neg qDot] at h
          simp only [Except.ok.injEq, Prod.mk.injEq] at h
          obtain ⟨rfl, rfl, rfl⟩ := h
          exact ⟨⟨uN, huN, hpN⟩, rfl, rfl⟩
    · rw [if_neg qD] at h
      simp only [Except.ok.injEq, Prod.mk.injEq] at h
      obtain ⟨rfl, rfl, rfl⟩ := h
      exact ⟨⟨uN, huN, hpN⟩, rfl, rfl⟩
  rw [if_neg q10] at h
  by_cases q11 : is_id_start lc = true
  · rw [if_pos q11] at h
    rcases hS : skip_while is_id_continue l pos with ⟨t', r', p'⟩
    rw [hS] at h
    dsimp only at h
    simp only [Except.ok.injEq, Prod.mk.injEq] at h
    obtain ⟨rfl, rfl, rfl⟩ := h
    obtain ⟨h1, h2, -, -⟩ := skip_while_decomp hS
    exact ⟨⟨t', h1, h2⟩, rfl, rfl⟩
  · rw [if_neg q11] at h
    exact absurd h (by simp)

theorem next_cont_error_string {cfg : TokenizerConfig} {ts : Position} {lc : Char}
    {l : List Char} {pos q : Position}
    (h : next_cont cfg ts lc l pos = .error (.UnterminatedString q)) :
    q = advanceList pos l := by
  rw [next_cont.eq_def] at h
  by_cases q1 : lc = '('
  · rw [if_pos q1] at h
    exact absurd h (by simp)
  rw [if_neg q1] at h
  by_cases q2 : lc = ')'
  · rw [if_pos q2] at h
    exact absurd h (by simp)
  rw [if_neg q2] at h
  by_cases q3 : (cfg.support_bracket && lc == '[') = true
  · rw [if_pos q3] at h
    exact absurd h (by simp)
  rw [if_neg q3] at h
  by_cases q4 : (cfg.support_bracket && lc == ']') = true
  · rw [if_pos q4] at h
    exact absurd h (by simp)
  rw [if_neg q4] at h
  by_cases q5 : (cfg.support_brace && lc == '{') = true
  · rw [if_pos q5] at h
    exact absurd h (by simp)
  rw [if_neg q5] at h
  by_cases q6 : (cfg.support_brace && lc == '}') = true
  · rw [if_pos q6] at h
    exact absurd h (by simp)
  rw [if_neg q6] at h
  by_cases q7 : lc = ';'
  · rw [if_pos q7] at h
    rcases hS : skip_until (fun c => c == '\n') l pos with ⟨t', r', p'⟩
    rw [hS] at h
    exact absurd h (by simp)
  rw [if_neg q7] at h
  by_cases q8 : lc = '"'
  · rw [if_pos q8] at h
    rcases hB : string_body false false l pos with e | ⟨hE, t', r', p'⟩ <;> rw [hB] at h
    · simp only [Except.error.injEq] at h
      have hs := string_body_error hB
      rw [h] at hs
      injection hs
    · exact absurd h (by simp)
  rw [if_neg q8] at h
  by_cases q9 : (cfg.support_bytes && lc == '#') = true
  · rw [if_pos q9] at h
    rcases hB : bytes_body l pos with e | ⟨t', r', p'⟩ <;> rw [hB] at h
    · simp only [Except.error.injEq] at h
      rcases bytes_body_error_shape hB with ⟨v, hv⟩ | ⟨v, c', hv⟩ <;> rw [hv] at h <;>
        exact absurd h.symm (by simp)
    · exact absurd h (by simp)
  rw [if_neg q9] at h
  by_cases q10 : is_ascii_digit lc = true
  · rw [if_pos q10] at h
    rcases hN : number lc l pos with ⟨n', r1, p1⟩
    rw [hN] at h
    dsimp only at h
    by_cases qD : n'.base = ANumBase.Decimal
    · rw [if_pos qD] at h
      cases r1 with
      | nil => exact absurd h (by simp)
      | cons c cs =>
        dsimp only at h
        by_cases qDot : c = '.'
        · rw [if_pos qDot] at h
          rcases hF : skip_while is_ascii_digit cs (p1.advance c) with ⟨tF, rF, pF⟩
          rw [hF] at h
          exact absurd h (by simp)
        · rw [if_neg qDot] at h
          exact absurd h (by simp)
    · rw [if_neg qD] at h
      exact absurd h (by simp)
  rw [if_neg q10] at h
  by_cases q11 : is_id_start lc = true
  · rw [if_pos q11] at h
    rcases hS : skip_while is_id_continue l pos with ⟨t', r', p'⟩
    rw [hS] at h
    exact absurd h (by simp)
  · rw [if_neg q11] at h
    simp only [Except.error.injEq] at h
    injection h

theorem tokenizer_next_go_decomp {cfg : TokenizerConfig} : ∀ {fuel : Nat} {l r : List Char}
    {pos p : Position} {o : Option (Spanned Token)},
    tokenizer_next_go cfg fuel l pos = .ok (o, r, p) →
    ∃ u, l = u ++ r ∧ p = advanceList pos u := by
  intro fuel
  induction fuel with
  | zero =>
    intro l r pos p o h
    simp only [tokenizer_next_go, Except.ok.injEq, Prod.mk.injEq] at h
    obtain ⟨rfl, rfl, rfl⟩ := h
    exact ⟨[], rfl, rfl⟩
  | succ fuel ih =>
    intro l r pos p o h
    rcases hW : skip_whitespace l pos with ⟨l1, p1⟩
    simp only [tokenizer_next_go, hW] at h
    obtain ⟨tW, hW1, hW2⟩ := skip_whitespace_decomp hW
    cases l1 with
    | nil =>
      simp only [Except.ok.injEq, Prod.mk.injEq] at h
      obtain ⟨rfl, rfl, rfl⟩ := h
      exact ⟨tW, by simpa using hW1, hW2⟩
    | cons c cs =>
      dsimp only at h
      rcases hC : next_cont cfg p1 c cs (p1.advance c) with e | ⟨tok, r2, p2⟩
      · rw [hC] at h
        exact absurd h (by simp)
      · rw [hC] at h
        dsimp only at h
        obtain ⟨⟨u, hu, hp⟩, -, -⟩ := next_cont_ok hC
        by_cases hF : (tok.inner.is_comment && cfg.filter_comment) = true
        · rw [if_pos hF] at h
          obtain ⟨u2, hu2, hp2⟩ := ih h
          refine ⟨tW ++ ((c :: u) ++ u2), ?_, ?_⟩
          · rw [hW1, hu, hu2]
            simp
          · rw [advanceList_append, ← hW2, advanceList_append, advanceList_cons, ← hp, ← hp2]
        · rw [if_neg hF] at h
          simp only [Except.ok.injEq, Prod.mk.injEq] at h
          obtain ⟨rfl, rfl, rfl⟩ := h
          refine ⟨tW ++ c :: u, ?_, ?_⟩
          · rw [hW1, hu]
            simp
          · rw [advanceList_append, ← hW2, advanceList_cons, ← hp]

theorem tokenizer_next_go_some {cfg : TokenizerConfig} : ∀ {fuel : Nat} {l r : List Char}
    {pos p : Position} {tok : Spanned Token},
    tokenizer_next_go cfg fuel l pos = .ok (some tok, r, p) →
    tok.span.stop = p ∧ posLe pos tok.span.start ∧ posLe tok.span.start p ∧ r.length < l.length := by
  intro fuel
  induction fuel with
  | zero =>
    intro l r pos p tok h
    simp only [tokenizer_next_go, Except.ok.injEq, Prod.mk.injEq] at h
    exact absurd h.1 (by simp)
  | succ fuel ih =>
    intro l r pos p tok h
    rcases hW : skip_whitespace l pos with ⟨l1, p1⟩
    simp only [tokenizer_next_go, hW] at h
    obtain ⟨tW, hW1, hW2⟩ := skip_whitespace_decomp hW
    cases l1 with
    | nil =>
      simp only [Except.ok.injEq, Prod.mk.injEq] at h
      exact absurd h.1 (by simp)
    | cons c cs =>
      dsimp only at h
      rcases hC : next_cont cfg p1 c cs (p1.advance c) with e | ⟨tok2, r2, p2⟩
      · rw [hC] at h
        exact absurd h (by simp)
      · rw [hC] at h
        dsimp only at h
        obtain ⟨⟨u, hu, hp⟩, hstart, hstop⟩ := next_cont_ok hC
        have hlen2 : r2.length < l.length := by
          have : r2.length ≤ cs.length := by
            rw [hu]
            simp
          rw [hW1]
          simp
          omega
        by_cases hF : (tok2.inner.is_comment && cfg.filter_comment) = true
        · rw [if_pos hF] at h
          obtain ⟨i1, i2, i3, i4⟩ := ih h
          refine ⟨i1, ?_, i3, by omega⟩
          have hp12 : posLe pos p2 := by
            have a1 : posLe pos p1 := by
              rw [hW2]
              exact posLe_advanceList pos tW
            have a2 : posLe p1 p2 := by
              rw [hp]
              exact posLe_trans (posLe_advance p1 c) (posLe_advanceList _ u)
            exact posLe_trans a1 a2
          exact posLe_trans hp12 i2
        · rw [if_neg hF] at h
          simp only [Except.ok.injEq, Prod.mk.injEq, Option.some.injEq] at h
          obtain ⟨rfl, rfl, rfl⟩ := h
          refine ⟨hstop, ?_, ?_, hlen2⟩
          · rw [hstart, hW2]
            exact posLe_advanceList pos tW
          · rw [hstart, hp]
            exact posLe_trans (posLe_advance p1 c) (posLe_advanceList _ u)

theorem tokenizer_next_go_error_string {cfg : TokenizerConfig} : ∀ {fuel : Nat} {l : List Char}
    {pos q : Position},
    tokenizer_next_go cfg fuel l pos = .error (.UnterminatedString q) →
    q = advanceList pos l := by
  intro fuel
  induction fuel with
  | zero =>
    intro l pos q h
    exact absurd h (by simp [tokenizer_next_go])
  | succ fuel ih =>
    intro l pos q h
    rcases hW : skip_whitespace l pos with ⟨l1, p1⟩
    simp only [tokenizer_next_go, hW] at h
    obtain ⟨tW, hW1, hW2⟩ := skip_whitespace_decomp hW
    cases l1 with
    | nil => exact absurd h (by simp)
    | cons c cs =>
      dsimp only at h
      rcases hC : next_cont cfg p1 c cs (p1.advance c) with e | ⟨tok2, r2, p2⟩
      · rw [hC] at h
        dsimp only at h
        simp only [Except.error.injEq] at h
        subst h
        have := next_cont_error_string hC
        rw [this, hW1, advanceList_append, ← hW2, advanceList_cons]
      · rw [hC] at h
        dsimp only at h
        obtain ⟨⟨u, hu, hp⟩, -, -⟩ := next_cont_ok hC
        by_cases hF : (tok2.inner.is_comment && cfg.filter_comment) = true
        · rw [if_pos hF] at h
          rw [ih h, hW1, hu, advanceList_append, ← hW2, advanceList_cons, advanceList_append, ← hp]
        · rw [if_neg hF] at h
          exact absurd h (by simp)

theorem tokenizer_next_go_add {cfg : TokenizerConfig} : ∀ (fuel extra : Nat) (l : List Char)
    (pos : Position), l.length < fuel →
    tokenizer_next_go cfg (fuel + extra) l pos = tokenizer_next_go cfg fuel l pos := by
  intro fuel
  induction fuel with
  | zero =>
    intro extra l pos hlen
    omega
  | succ fuel ih =>
    intro extra l pos hlen
    have hsh : fuel + 1 + extra = (fuel + extra) + 1 := by omega
    rw [hsh]
    rcases hW : skip_whitespace l pos with ⟨l1, p1⟩
    simp only [tokenizer_next_go, hW]
    obtain ⟨tW, hW1, hW2⟩ := skip_whitespace_decomp hW
    cases l1 with
    | nil => rfl
    | cons c cs =>
      dsimp only
      rcases hC : next_cont cfg p1 c cs (p1.advance c) with e | ⟨tok2, r2, p2⟩
      · rfl
      · dsimp only
        obtain ⟨⟨u, hu, hp⟩, -, -⟩ := next_cont_ok hC
        by_cases hF : (tok2.inner.is_comment && cfg.filter_comment) = true
        · rw [if_pos hF, if_pos hF]
          apply ih
          have h1 : r2.length ≤ cs.length := by
            rw [hu]
            simp
          have h2 : cs.length < l.length := by
            rw [hW1]
            simp
            omega
          omega
        · rw [if_neg hF, if_neg hF]

theorem tokenizer_next_go_eq {cfg : TokenizerConfig} {fuel : Nat} {l : List Char} {pos : Position}
    (h : l.length < fuel) :
    tokenizer_next_go cfg fuel l pos = tokenizer_next cfg l pos := by
  unfold tokenizer_next
  have h2 : fuel = (l.length + 1) + (fuel - l.length - 1) := by omega
  rw [h2, tokenizer_next_go_add (l.length + 1) _ l pos (by omega)]

theorem tokenizer_next_ws_nil {cfg : TokenizerConfig} {l : List Char} {pos p1 : Position}
    (hW : skip_whitespace l pos = ([], p1)) :
    tokenizer_next cfg l pos = .ok (none, [], p1) := by
  unfold tokenizer_next
  simp only [tokenizer_next_go, hW]

theorem tokenizer_next_step {cfg : TokenizerConfig} {l cs : List Char} {c : Char} {pos p1 : Position}
    (hW : skip_whitespace l pos = (c :: cs, p1)) :
    tokenizer_next cfg l pos =
      match next_cont cfg p1 c cs (p1.advance c) with
      | .error e => .error e
      | .ok (tok, r, p2) =>
        if tok.inner.is_comment && cfg.filter_comment then tokenizer_next cfg r p2
        else .ok (some tok, r, p2) := by
  conv =>
    lhs
    unfold tokenizer_next
  simp only [tokenizer_next_go, hW]
  obtain ⟨tW, hW1, hW2⟩ := skip_whitespace_decomp hW
  rcases hC : next_cont cfg p1 c cs (p1.advance c) with e | ⟨tok2, r2, p2⟩
  · rfl
  · dsimp only
    obtain ⟨⟨u, hu, hp⟩, -, -⟩ := next_cont_ok hC
    by_cases hF : (tok2.inner.is_comment && cfg.filter_comment) = true
    · rw [if_pos hF, if_pos hF]
      apply tokenizer_next_go_eq
      have h1 : r2.length ≤ cs.length := by
        rw [hu]
        simp
      have h2 : cs.length < l.length := by
        rw [hW1]
        simp
        omega
      omega
    · rw [if_neg hF, if_neg hF]

theorem tokenizer_next_decomp {cfg : TokenizerConfig} {l r : List Char} {pos p : Position}
    {o : Option (Spanned Token)} (h : tokenizer_next cfg l pos = .ok (o, r, p)) :
    ∃ u, l = u ++ r ∧ p = advanceList pos u :=
  tokenizer_next_go_decomp h

theorem tokenizer_next_some {cfg : TokenizerConfig} {l r : List Char} {pos p : Position}
    {tok : Spanned Token} (h : tokenizer_next cfg l pos = .ok (some tok, r, p)) :
    tok.span.stop = p ∧ posLe pos tok.span.start ∧ posLe tok.span.start p ∧ r.length < l.length :=
  tokenizer_next_go_some h

theorem parser_loop_go_add {cfg : TokenizerConfig} : ∀ (fuel extra : Nat) (l : List Char)
    (pos : Position) (out : List Frame), l.length < fuel →
    parser_loop_go cfg (fuel + extra) l pos out = parser_loop_go cfg fuel l pos out := by
  intro fuel
  induction fuel with
  | zero =>
    intro extra l pos out hlen
    omega
  | succ fuel ih =>
    intro extra l pos out hlen
    have hsh : fuel + 1 + extra = (fuel + extra) + 1 := by omega
    rw [hsh]
    rcases hT : tokenizer_next cfg l pos with e | ⟨o, r, p⟩
    · simp only [parser_loop_go, hT]
    · cases o with
      | none => simp only [parser_loop_go, hT]
      | some tok =>
        have hlen2 : r.length < l.length := (tokenizer_next_some hT).2.2.2
        have hrec : ∀ out', parser_loop_go cfg (fuel + extra) r p out'
            = parser_loop_go cfg fuel r p out' := fun out' => ih extra r p out' (by omega)
        simp only [parser_loop_go, hT]
        rcases hI : tok.inner with g | g | cm | a
        · exact hrec _
        · cases out with
          | nil => rfl
          | cons f rest =>
            rcases f with ⟨ig, isp, iels⟩
            dsimp only
            by_cases hg : ig = g
            · rw [if_pos hg, if_pos hg]
              cases rest with
              | nil => rfl
              | cons f2 rest2 =>
                rcases f2 with ⟨g2, sp2, els2⟩
                exact hrec _
            · rw [if_neg hg, if_neg hg]
        · cases out with
          | nil => rfl
          | cons f rest =>
            rcases f with ⟨g2, sp2, els2⟩
            exact hrec _
        · cases out with
          | nil => rfl
          | cons f rest =>
            rcases f with ⟨g2, sp2, els2⟩
            exact hrec _

theorem parser_loop_go_eq {cfg : TokenizerConfig} {fuel : Nat} {l : List Char} {pos : Position}
    {out : List Frame} (h : l.length < fuel) :
    parser_loop_go cfg fuel l pos out = parser_loop cfg l pos out := by
  unfold parser_loop
  have h2 : fuel = (l.length + 1) + (fuel - l.length - 1) := by omega
  rw [h2, parser_loop_go_add (l.length + 1) _ l pos out (by omega)]

theorem parser_loop_go_some_len {cfg : TokenizerConfig} : ∀ {fuel : Nat} {l r : List Char}
    {pos p : Position} {out : List Frame} {el : Spanned Element},
    parser_loop_go cfg fuel l pos out = .ok (some el, r, p) → r.length < l.length := by
  intro fuel
  induction fuel with
  | zero =>
    intro l r pos p out el h
    simp only [parser_loop_go, Except.ok.injEq, Prod.mk.injEq] at h
    exact absurd h.1 (by simp)
  | succ fuel ih =>
    intro l r pos p out el h
    rcases hT : tokenizer_next cfg l pos with e | ⟨o, r0, p0⟩ <;> rw [parser_loop_go, hT] at h
    · exact absurd h (by simp)
    · cases o with
      | none =>
        dsimp only at h
        cases out with
        | nil =>
          simp only [Except.ok.injEq, Prod.mk.injEq] at h
          exact absurd h.1 (by simp)
        | cons f rest =>
          rcases f with ⟨ig, isp, iels⟩
          exact absurd h (by simp)
      | some tok =>
        have hlen2 : r0.length < l.length := (tokenizer_next_some hT).2.2.2
        dsimp only at h
        rcases hI : tok.inner with g | g | cm | a <;> rw [hI] at h
        · have := ih h
          omega
        · cases out with
          | nil => exact absurd h (by simp)
          | cons f rest =>
            rcases f with ⟨ig, isp, iels⟩
            dsimp only at h
            by_cases hg : ig = g
            · rw [if_pos hg] at h
              cases rest with
              | nil =>
                simp only [Except.ok.injEq, Prod.mk.injEq] at h
                exact h.2.1 ▸ hlen2
              | cons f2 rest2 =>
                rcases f2 with ⟨g2, sp2, els2⟩
                have := ih h
                omega
            · rw [if_neg hg] at h
              exact absurd h (by simp)
        · cases out with
          | nil =>
            simp only [Except.ok.injEq, Prod.mk.injEq] at h
            exact h.2.1 ▸ hlen2
          | cons f rest =>
            rcases f with ⟨g2, sp2, els2⟩
            have := ih h
            omega
        · cases out with
          | nil =>
            simp only [Except.ok.injEq, Prod.mk.injEq] at h
            exact h.2.1 ▸ hlen2
          | cons f rest =>
            rcases f with ⟨g2, sp2, els2⟩
            have := ih h
            omega

theorem parser_loop_tok_error {cfg : TokenizerConfig} {l : List Char} {pos : Position}
    {out : List Frame} {e : TokenError} (hT : tokenizer_next cfg l pos = .error e) :
    parser_loop cfg l pos out = .error (.TokenizerError e) := by
  unfold parser_loop
  simp only [parser_loop_go, hT]

theorem parser_loop_tok_none {cfg : TokenizerConfig} {l r : List Char} {pos p : Position}
    {out : List Frame} (hT : tokenizer_next cfg l pos = .ok (none, r, p)) :
    parser_loop cfg l pos out =
      match out with
      | [] => .ok (none, r, p)
      | (grp, _, _) :: _ => .error (.UnfinishedGroup grp) := by
  unfold parser_loop
  simp only [parser_loop_go, hT]

theorem parser_loop_tok_some {cfg : TokenizerConfig} {l r : List Char} {pos p : Position}
    {out : List Frame} {tok : Spanned Token}
    (hT : tokenizer_next cfg l pos = .ok (some tok, r, p)) :
    parser_loop cfg l pos out =
      match tok.inner with
      | .Comment cm =>
        match out with
        | [] => .ok (some ⟨tok.span, .Comment cm⟩, r, p)
        | (g, sp, els) :: rest =>
          parser_loop cfg r p ((g, sp, els ++ [⟨tok.span, .Comment cm⟩]) :: rest)
      | .Atom a =>
        match out with
        | [] => .ok (some ⟨tok.span, .Atom a⟩, r, p)
        | (g, sp, els) :: rest =>
          parser_loop cfg r p ((g, sp, els ++ [⟨tok.span, .Atom a⟩]) :: rest)
      | .Left g => parser_loop cfg r p ((g, tok.span, []) :: out)
      | .Right g =>
        match out with
        | [] => .error (.UnbalancedEmpty tok.span.start g)
        | (ig, isp, iels) :: rest =>
          if ig = g then
            match rest with
            | [] => .ok (some ⟨isp.extend tok.span, .Group g iels⟩, r, p)
            | (g2, sp2, els2) :: rest2 =>
              parser_loop cfg r p ((g2, sp2, els2 ++ [⟨isp.extend tok.span, .Group g iels⟩]) :: rest2)
          else .error (.UnbalancedMismatch (isp.extend tok.span) ig g) := by
  have hlen2 : r.length < l.length := (tokenizer_next_some hT).2.2.2
  conv =>
    lhs
    unfold parser_loop
  simp only [parser_loop_go, hT]
  have hrec : ∀ out', parser_loop_go cfg l.length r p out' = parser_loop cfg r p out' :=
    fun out' => parser_loop_go_eq (by omega)
  rcases hI : tok.inner with g | g | cm | a
  · exact hrec _
  · cases out with
    | nil => rfl
    | cons f rest =>
      rcases f with ⟨ig, isp, iels⟩
      dsimp only
      by_cases hg : ig = g
      · rw [if_pos hg, if_pos hg]
        cases rest with
        | nil => rfl
        | cons f2 rest2 =>
          rcases f2 with ⟨g2, sp2, els2⟩
          exact hrec _
      · rw [if_neg hg, if_neg hg]
  · cases out with
    | nil => rfl
    | cons f rest =>
      rcases f with ⟨g2, sp2, els2⟩
      exact hrec _
  · cases out with
    | nil => rfl
    | cons f rest =>
      rcases f with ⟨g2, sp2, els2⟩
      exact hrec _

theorem parser_next_some_len {cfg : TokenizerConfig} {l r : List Char} {pos p : Position}
    {el : Spanned Element} (h : parser_next cfg l pos = .ok (some el, r, p)) :
    r.length < l.length :=
  parser_loop_go_some_len h

theorem token_stream_go_add {cfg : TokenizerConfig} : ∀ (fuel extra : Nat) (l : List Char)
    (pos : Position), l.length < fuel →
    token_stream_go cfg (fuel + extra) l pos = token_stream_go cfg fuel l pos := by
  intro fuel
  induction fuel with
  | zero =>
    intro extra l pos hlen
    omega
  | succ fuel ih =>
    intro extra l pos hlen
    have hsh : fuel + 1 + extra = (fuel + extra) + 1 := by omega
    rw [hsh]
    rcases hT : tokenizer_next cfg l pos with e | ⟨o, r, p⟩
    · simp only [token_stream_go, hT]
    · cases o with
      | none => simp only [token_stream_go, hT]
      | some tok =>
        have hlen2 : r.length < l.length := (tokenizer_next_some hT).2.2.2
        simp only [token_stream_go, hT]
        rw [ih extra r p (by omega)]

theorem token_stream_go_eq {cfg : TokenizerConfig} {fuel : Nat} {l : List Char} {pos : Position}
    (h : l.length < fuel) :
    token_stream_go cfg fuel l pos = token_stream cfg l pos := by
  unfold token_stream
  have h2 : fuel = (l.length + 1) + (fuel - l.length - 1) := by omega
  rw [h2, token_stream_go_add (l.length + 1) _ l pos (by omega)]

theorem token_stream_tok_error {cfg : TokenizerConfig} {l : List Char} {pos : Position}
    {e : TokenError} (hT : tokenizer_next cfg l pos = .error e) :
    token_stream cfg l pos = ([], some e) := by
  unfold token_stream
  simp only [token_stream_go, hT]

theorem token_stream_tok_none {cfg : TokenizerConfig} {l r : List Char} {pos p : Position}
    (hT : tokenizer_next cfg l pos = .ok (none, r, p)) :
    token_stream cfg l pos = ([], none) := by
  unfold token_stream
  simp only [token_stream_go, hT]

theorem token_stream_tok_some {cfg : TokenizerConfig} {l r : List Char} {pos p : Position}
    {tok : Spanned Token} (hT : tokenizer_next cfg l pos = .ok (some tok, r, p)) :
    token_stream cfg l pos =
      (tok :: (token_stream cfg r p).1, (token_stream cfg r p).2) := by
  have hlen2 : r.length < l.length := (tokenizer_next_some hT).2.2.2
  conv =>
    lhs
    unfold token_stream
  simp only [token_stream_go, hT]
  rw [token_stream_go_eq (by omega)]

theorem element_stream_go_add {cfg : TokenizerConfig} : ∀ (fuel extra : Nat) (l : List Char)
    (pos : Position), l.length < fuel →
    element_stream_go cfg (fuel + extra) l pos = element_stream_go cfg fuel l pos := by
  intro fuel
  induction fuel with
  | zero =>
    intro extra l pos hlen
    omega
  | succ fuel ih =>
    intro extra l pos hlen
    have hsh : fuel + 1 + extra = (fuel + extra) + 1 := by omega
    rw [hsh]
    rcases hP : parser_next cfg l pos with e | ⟨o, r, p⟩
    · simp only [element_stream_go, hP]
    · cases o with
      | none => simp only [element_stream_go, hP]
      | some el =>
        have hlen2 : r.length < l.length := parser_next_some_len hP
        simp only [element_stream_go, hP]
        rw [ih extra r p (by omega)]

theorem element_stream_go_eq {cfg : TokenizerConfig} {fuel : Nat} {l : List Char} {pos : Position}
    (h : l.length < fuel) :
    element_stream_go cfg fuel l pos = element_stream cfg l pos := by
  unfold element_stream
  have h2 : fuel = (l.length + 1) + (fuel - l.length - 1) := by omega
  rw [h2, element_stream_go_add (l.length + 1) _ l pos (by omega)]

theorem element_stream_el_error {cfg : TokenizerConfig} {l : List Char} {pos : Position}
    {e : ParserError} (hP : parser_next cfg l pos = .error e) :
    element_stream cfg l pos = ([], some e) := by
  unfold element_stream
  simp only [element_stream_go, hP]

theorem element_stream_el_none {cfg : TokenizerConfig} {l r : List Char} {pos p : Position}
    (hP : parser_next cfg l pos = .ok (none, r, p)) :
    element_stream cfg l pos = ([], none) := by
  unfold element_stream
  simp only [element_stream_go, hP]

theorem element_stream_el_some {cfg : TokenizerConfig} {l r : List Char} {pos p : Position}
    {el : Spanned Element} (hP : parser_next cfg l pos = .ok (some el, r, p)) :
    element_stream cfg l pos =
      (el :: (element_stream cfg r p).1, (element_stream cfg r p).2) := by
  have hlen2 : r.length < l.length := parser_next_some_len hP
  conv =>
    lhs
    unfold element_stream
  simp only [element_stream_go, hP]
  rw [element_stream_go_eq (by omega)]

theorem is_ascii_digit_iff {c : Char} : is_ascii_digit c = true ↔ 48 ≤ c.toNat ∧ c.toNat ≤ 57 := by
  simp [is_ascii_digit, Bool.and_eq_true, decide_eq_true_eq]

theorem digit_rust_numeric {c : Char} (h : is_ascii_digit c = true) : rust_is_numeric c = true := by
  rw [is_ascii_digit_iff] at h
  simp only [rust_is_numeric, inRange, Bool.or_eq_true, Bool.and_eq_true, decide_eq_true_eq]
  omega

theorem digit_char_facts {c : Char} (h : is_ascii_digit c = true) :
    rust_is_numeric c = true ∧ is_tok_whitespace c = false ∧
    c ≠ '(' ∧ c ≠ ')' ∧ c ≠ ';' ∧ c ≠ '"' ∧ c ≠ 'b' ∧ c ≠ 'x' ∧ c ≠ '_' ∧ c ≠ '.' ∧
    (c == '[') = false ∧ (c == ']') = false ∧ (c == '{') = false ∧ (c == '}') = false ∧
    (c == '#') = false := by
  refine ⟨digit_rust_numeric h, ?_, ?_, ?_, ?_, ?_, ?_, ?_, ?_, ?_, ?_, ?_, ?_, ?_, ?_⟩
  · rw [Bool.eq_false_iff]
    intro hw
    simp only [is_tok_whitespace, Bool.or_eq_true, beq_iff_eq] at hw
    rcases hw with (rfl | rfl) | rfl <;> exact absurd h (by decide)
  · exact fun hc => absurd (hc ▸ h) (by decide)
  · exact fun hc => absurd (hc ▸ h) (by decide)
  · exact fun hc => absurd (hc ▸ h) (by decide)
  · exact fun hc => absurd (hc ▸ h) (by decide)
  · exact fun hc => absurd (hc ▸ h) (by decide)
  · exact fun hc => absurd (hc ▸ h) (by decide)
  · exact fun hc => absurd (hc ▸ h) (by decide)
  · exact fun hc => absurd (hc ▸ h) (by decide)
  · exact beq_eq_false_iff_ne.mpr (fun hc => absurd (hc ▸ h) (by decide))
  · exact beq_eq_false_iff_ne.mpr (fun hc => absurd (hc ▸ h) (by decide))
  · exact beq_eq_false_iff_ne.mpr (fun hc => absurd (hc ▸ h) (by decide))
  · exact beq_eq_false_iff_ne.mpr (fun hc => absurd (hc ▸ h) (by decide))
  · exact beq_eq_false_iff_ne.mpr (fun hc => absurd (hc ▸ h) (by decide))

theorem digit_underscore_numeric {c : Char} (h : is_ascii_digit c = true ∨ c = '_') :
    (rust_is_numeric c || c == '_') = true := by
  rcases h with h | rfl
  · rw [digit_rust_numeric h]
    simp
  · simp

theorem not_numeric_not_digit {c : Char} (h : (rust_is_numeric c || c == '_') = false) :
    is_ascii_digit c = false := by
  rw [Bool.eq_false_iff]
  intro hd
  rw [digit_rust_numeric hd] at h
  simp at h

theorem skip_whitespace_not_ws {c : Char} {cs : List Char} {pos : Position}
    (h : is_tok_whitespace c = false) :
    skip_whitespace (c :: cs) pos = (c :: cs, pos) := by
  rw [skip_whitespace, if_neg (by simp [h])]

theorem number_single {d : Char} {rest : List Char} {pos : Position}
    (hstop : ∀ c, rest.head? = some c → (rust_is_numeric c || c == '_') = false)
    (hbx : d = '0' → ∀ c, rest.head? = some c → c ≠ 'b' ∧ c ≠ 'x') :
    number d rest pos = (⟨.Decimal, [d]⟩, rest, pos) := by
  cases rest with
  | nil => rfl
  | cons c cs =>
    have hnum := hstop c rfl
    have hnd : is_ascii_digit c = false := not_numeric_not_digit hnum
    rw [number]
    by_cases h0 : d = '0'
    · obtain ⟨hb, hx⟩ := hbx h0 c rfl
      rw [if_pos h0, if_neg hb, if_neg hx, if_neg (by simp [hnd])]
    · rw [if_neg h0, if_neg (by simp [hnd])]

theorem number_run {d d2 : Char} {ds2 rest : List Char} {pos : Position}
    (hd2 : is_ascii_digit d2 = true)
    (hds2 : ∀ c ∈ ds2, (rust_is_numeric c || c == '_') = true)
    (hstop : ∀ c, rest.head? = some c → (rust_is_numeric c || c == '_') = false) :
    number d (d2 :: (ds2 ++ rest)) pos
      = (⟨.Decimal, d :: d2 :: ds2⟩, rest, advanceList pos (d2 :: ds2)) := by
  obtain ⟨-, -, -, -, -, -, hb, hx, -, -, -, -, -, -, -⟩ := digit_char_facts hd2
  have hSW := skip_while_full (f := fun c => rust_is_numeric c || c == '_')
    (a := ds2) (b := rest) (pos.advance d2) hds2 hstop
  rw [number]
  by_cases h0 : d = '0'
  · rw [if_pos h0, if_neg hb, if_neg hx, if_pos hd2, hSW]
    rfl
  · rw [if_neg h0, if_pos hd2, hSW]
    rfl

theorem next_cont_digit {cfg : TokenizerConfig} {ts : Position} {d : Char} {l : List Char}
    {pos : Position} (hd : is_ascii_digit d = true) :
    next_cont cfg ts d l pos =
      (let n := number d l pos
       if n.1.base = ANumBase.Decimal then
         match n.2.1 with
         | c :: cs =>
           if c = '.' then
             let fr := skip_while is_ascii_digit cs ((n.2.2).advance c)
             .ok (⟨⟨ts, fr.2.2⟩, .Atom (.Decimal ⟨n.1.dat, fr.1⟩)⟩, fr.2.1, fr.2.2)
           else .ok (⟨⟨ts, n.2.2⟩, .Atom (.Integral n.1)⟩, c :: cs, n.2.2)
         | [] => .ok (⟨⟨ts, n.2.2⟩, .Atom (.Integral n.1)⟩, [], n.2.2)
       else .ok (⟨⟨ts, n.2.2⟩, .Atom (.Integral n.1)⟩, n.2.1, n.2.2)) := by
  obtain ⟨-, -, hp1, hp2, hsemi, hq, -, -, -, -, hbk1, hbk2, hbr1, hbr2, hhash⟩ :=
    digit_char_facts hd
  rw [next_cont.eq_def]
  rw [if_neg hp1, if_neg hp2, if_neg (by simp [hbk1]), if_neg (by simp [hbk2]),
      if_neg (by simp [hbr1]), if_neg (by simp [hbr2]), if_neg hsemi, if_neg hq,
      if_neg (by simp [hhash]), if_pos hd]

theorem char_to_digit_digit {c : Char} (h : is_ascii_digit c = true) :
    char_to_digit c 10 = some (c.toNat - 48) := by
  have hb := is_ascii_digit_iff.mp h
  unfold char_to_digit
  rw [if_pos h]
  dsimp only
  rw [if_pos (by omega : c.toNat - 48 < 10)]

theorem char_to_digit_not_digit {c : Char} (h : is_ascii_digit c = false) :
    char_to_digit c 10 = none := by
  unfold char_to_digit
  rw [if_neg (by simp [h])]
  by_cases h2 : 97 ≤ c.toNat ∧ c.toNat ≤ 122
  · rw [if_pos h2]
    dsimp only
    rw [if_neg (by omega)]
  · rw [if_neg h2]
    by_cases h3 : 65 ≤ c.toNat ∧ c.toNat ≤ 90
    · rw [if_pos h3]
      dsimp only
      rw [if_neg (by omega)]
    · rw [if_neg h3]

theorem foldl_digits_le : ∀ (ds : List Char) (acc : Nat),
    acc ≤ ds.foldl (fun a c => a * 10 + (c.toNat - 48)) acc := by
  intro ds
  induction ds with
  | nil => exact fun acc => le_refl acc
  | cons c cs ih =>
    intro acc
    have h1 : acc ≤ acc * 10 + (c.toNat - 48) := by omega
    exact le_trans h1 (ih _)

theorem from_str_radix_go_digits {bound : Nat} : ∀ {ds : List Char} {acc : Nat},
    (∀ c ∈ ds, is_ascii_digit c = true) →
    ds.foldl (fun a c => a * 10 + (c.toNat - 48)) acc < bound →
    from_str_radix_go bound 10 acc ds
      = some (ds.foldl (fun a c => a * 10 + (c.toNat - 48)) acc) := by
  intro ds
  induction ds with
  | nil => exact fun _ _ => rfl
  | cons c cs ih =>
    intro acc hds hbound
    have hc := char_to_digit_digit (hds c (by simp))
    rw [from_str_radix_go, hc]
    dsimp only
    have hstep : acc * 10 + (c.toNat - 48) < bound := by
      have := foldl_digits_le cs (acc * 10 + (c.toNat - 48))
      simp only [List.foldl_cons] at hbound
      omega
    rw [if_pos hstep]
    have := ih (fun x hx => hds x (by simp [hx])) (by simpa using hbound)
    simpa using this

theorem from_str_radix_digits {bound : Nat} {ds : List Char} (hne : ds ≠ [])
    (hds : ∀ c ∈ ds, is_ascii_digit c = true) (hb : decimal_value ds < bound) :
    from_str_radix bound 10 ds = some (decimal_value ds) := by
  cases ds with
  | nil => exact absurd rfl hne
  | cons c cs => exact from_str_radix_go_digits hds hb

theorem from_str_radix_go_none {bound radix : Nat} {c : Char}
    (hnd : char_to_digit c radix = none) : ∀ {ds : List Char} {acc : Nat}, c ∈ ds →
    from_str_radix_go bound radix acc ds = none := by
  intro ds
  induction ds with
  | nil =>
    intro acc hc
    exact absurd hc (by simp)
  | cons d cs ih =>
    intro acc hc
    rcases hcd : char_to_digit d radix with - | v
    · rw [from_str_radix_go, hcd]
    · rcases List.mem_cons.mp hc with rfl | hc2
      · exact absurd hcd (by rw [hnd]; simp)
      · rw [from_str_radix_go, hcd]
        dsimp only
        by_cases hbd : acc * radix + v < bound
        · rw [if_pos hbd]
          exact ih hc2
        · rw [if_neg hbd]

theorem hex_id_continue {c : Char} (h : is_ascii_hexdigit c = true) : is_id_continue c = true := by
  simp only [is_ascii_hexdigit, Bool.or_eq_true, Bool.and_eq_true, decide_eq_true_eq] at h
  simp only [is_id_continue, is_ascii_alphabetic, Bool.or_eq_true, Bool.and_eq_true,
    decide_eq_true_eq]
  rcases h with (h | h) | h
  · left
    right
    exact h
  · left
    left
    left
    right
    exact ⟨h.1, by omega⟩
  · left
    left
    left
    left
    exact ⟨h.1, by omega⟩

/-- C9: the inputs `0x` and `0b` tokenize successfully into an Integral
atom of base Hexadecimal respectively Binary whose raw digit text is
empty, and every `to_u8` .. `to_u128` conversion on such an atom returns
a parse error (`none`). -/
theorem claim_C9 :
    token_stream TokenizerConfig.default ['0', 'x'] Position.default
      = ([⟨⟨⟨1, 0⟩, ⟨1, 2⟩⟩, .Atom (.Integral ⟨.Hexadecimal, []⟩)⟩], none) ∧
    token_stream TokenizerConfig.default ['0', 'b'] Position.default
      = ([⟨⟨⟨1, 0⟩, ⟨1, 2⟩⟩, .Atom (.Integral ⟨.Binary, []⟩)⟩], none) ∧
    (ANum.to_u8 ⟨.Hexadecimal, []⟩ = none ∧ ANum.to_u16 ⟨.Hexadecimal, []⟩ = none ∧
     ANum.to_u32 ⟨.Hexadecimal, []⟩ = none ∧ ANum.to_u64 ⟨.Hexadecimal, []⟩ = none ∧
     ANum.to_u128 ⟨.Hexadecimal, []⟩ = none) ∧
    (ANum.to_u8 ⟨.Binary, []⟩ = none ∧ ANum.to_u16 ⟨.Binary, []⟩ = none ∧
     ANum.to_u32 ⟨.Binary, []⟩ = none ∧ ANum.to_u64 ⟨.Binary, []⟩ = none ∧
     ANum.to_u128 ⟨.Binary, []⟩ = none) :=
  ⟨rfl, rfl, ⟨rfl, rfl, rfl, rfl, rfl⟩, ⟨rfl, rfl, rfl, rfl, rfl⟩⟩

/-- C2 counterexample: on the input `"ab` the opening quote is at
position 1:0, yet the unterminated-string error carries position 1:3,
the position reached at end of stream — refuting the claim that the
error carries the opening quote's position. -/
theorem claim_C2_counterexample :
    tokenizer_next TokenizerConfig.default ['"', 'a', 'b'] ⟨1, 0⟩
      = .error (.UnterminatedString ⟨1, 3⟩) ∧
    (⟨1, 3⟩ : Position) ≠ (⟨1, 0⟩ : Position) :=
  ⟨rfl, by decide⟩

/-- C2 (amended): whenever the tokenizer fails with an
unterminated-string error, the Position carried in that error is the
position reached at end of stream, that is, the position after
consuming every remaining character of the input. -/
theorem claim_C2 (cfg : TokenizerConfig) (l : List Char) (pos q : Position)
    (h : tokenizer_next cfg l pos = .error (.UnterminatedString q)) :
    q = advanceList pos l :=
  tokenizer_next_go_error_string h

/-- C2 witness: the amended claim applied to the concrete input `"ab`
from start position 1:0, whose end-of-stream position is 1:3. -/
theorem claim_C2_witness :
    (⟨1, 3⟩ : Position) = advanceList ⟨1, 0⟩ ['"', 'a', 'b'] :=
  claim_C2 TokenizerConfig.default ['"', 'a', 'b'] ⟨1, 0⟩ ⟨1, 3⟩ rfl

/-- C3: with bracket-group support disabled, a `[` at a token-start
position always fails lexing with an unprocessable-character error, and
in particular the example input `(a [1 2 "x"])` lexes `(` and `a` and
then fails at the `[` with `UnprocessedChar`. -/
theorem claim_C3 (cfg : TokenizerConfig) (rst : List Char) (pos : Position)
    (hb : cfg.support_bracket = false) :
    tokenizer_next cfg ('[' :: rst) pos = .error (.UnprocessedChar '[') ∧
    token_stream { TokenizerConfig.default with support_bracket := false }
        ['(', 'a', ' ', '[', '1', ' ', '2', ' ', '"', 'x', '"', ']', ')'] Position.default
      = ([⟨⟨⟨1, 0⟩, ⟨1, 1⟩⟩, .Left .Paren⟩,
          ⟨⟨⟨1, 1⟩, ⟨1, 2⟩⟩, .Atom (.Ident ['a'])⟩], some (.UnprocessedChar '[')) := by
  constructor
  · rcases cfg with ⟨fc, sby, sbr, sbk⟩
    dsimp only at hb
    subst hb
    cases fc <;> cases sby <;> cases sbr <;> rfl
  · rfl

/-- C3 witness: the bracket failure at a concrete configuration with
bracket support disabled and a concrete suffix. -/
theorem claim_C3_witness :
    tokenizer_next ⟨false, true, true, false⟩ ('[' :: ['1']) ⟨1, 0⟩
      = .error (.UnprocessedChar '[') ∧
    token_stream { TokenizerConfig.default with support_bracket := false }
        ['(', 'a', ' ', '[', '1', ' ', '2', ' ', '"', 'x', '"', ']', ')'] Position.default
      = ([⟨⟨⟨1, 0⟩, ⟨1, 1⟩⟩, .Left .Paren⟩,
          ⟨⟨⟨1, 1⟩, ⟨1, 2⟩⟩, .Atom (.Ident ['a'])⟩], some (.UnprocessedChar '[')) :=
  claim_C3 ⟨false, true, true, false⟩ ['1'] ⟨1, 0⟩ rfl

/-- C10: with byte-literal support disabled, an input of the form
`#hexdigits#` does not error and does not produce a Bytes atom: the
whole run, both `#` delimiters included, lexes as a single Ident atom
followed by a clean end of stream. -/
theorem claim_C10 (cfg : TokenizerConfig) (hs : List Char) (pos : Position)
    (hb : cfg.support_bytes = false) (hhex : ∀ c ∈ hs, is_ascii_hexdigit c = true) :
    token_stream cfg ('#' :: (hs ++ ['#'])) pos
      = ([⟨⟨pos, advanceList pos ('#' :: (hs ++ ['#']))⟩,
          .Atom (.Ident ('#' :: (hs ++ ['#'])))⟩], none) := by
  have hidc : ∀ c ∈ hs ++ ['#'], is_id_continue c = true := by
    intro c hc
    rcases List.mem_append.mp hc with hc | hc
    · exact hex_id_continue (hhex c hc)
    · simp only [List.mem_singleton] at hc
      subst hc
      rfl
  have hSW : skip_while is_id_continue ((hs ++ ['#']) ++ []) (pos.advance '#')
      = (hs ++ ['#'], [], advanceList (pos.advance '#') (hs ++ ['#'])) :=
    skip_while_full _ hidc (by intro c hc; simp at hc)
  rw [List.append_nil] at hSW
  have hW : skip_whitespace ('#' :: (hs ++ ['#'])) pos = ('#' :: (hs ++ ['#']), pos) :=
    skip_whitespace_not_ws rfl
  have hNC : next_cont cfg pos '#' (hs ++ ['#']) (pos.advance '#')
      = .ok (⟨⟨pos, advanceList (pos.advance '#') (hs ++ ['#'])⟩,
             .Atom (.Ident ('#' :: (hs ++ ['#'])))⟩, [],
             advanceList (pos.advance '#') (hs ++ ['#'])) := by
    rw [next_cont.eq_def]
    rw [if_neg (by decide : ¬('#' : Char) = '('), if_neg (by decide : ¬('#' : Char) = ')'),
        if_neg (by rw [show (('#' : Char) == '[') = false from rfl, Bool.and_false]; simp),
        if_neg (by rw [show (('#' : Char) == ']') = false from rfl, Bool.and_false]; simp),
        if_neg (by rw [show (('#' : Char) == '{') = false from rfl, Bool.and_false]; simp),
        if_neg (by rw [show (('#' : Char) == '}') = false from rfl, Bool.and_false]; simp),
        if_neg (by decide : ¬('#' : Char) = ';'), if_neg (by decide : ¬('#' : Char) = '"'),
        if_neg (by rw [hb]; simp), if_neg (by decide : ¬is_ascii_digit '#' = true),
        if_pos (show is_id_start '#' = true by decide)]
    rw [hSW]
  have hT : tokenizer_next cfg ('#' :: (hs ++ ['#'])) pos
      = .ok (some ⟨⟨pos, advanceList (pos.advance '#') (hs ++ ['#'])⟩,
             .Atom (.Ident ('#' :: (hs ++ ['#'])))⟩, [],
             advanceList (pos.advance '#') (hs ++ ['#'])) := by
    rw [tokenizer_next_step hW, hNC]
    rfl
  rw [token_stream_tok_some hT]
  rw [show token_stream cfg [] (advanceList (pos.advance '#') (hs ++ ['#'])) = ([], none)
      from rfl]
  rfl

/-- C10 witness: the concrete input `#ab#` with byte-literal support
disabled lexes as the single identifier `#ab#`. -/
theorem claim_C10_witness :
    token_stream ⟨false, false, true, true⟩ ('#' :: (['a', 'b'] ++ ['#'])) ⟨1, 0⟩
      = ([⟨⟨⟨1, 0⟩, advanceList ⟨1, 0⟩ ('#' :: (['a', 'b'] ++ ['#']))⟩,
          .Atom (.Ident ('#' :: (['a', 'b'] ++ ['#'])))⟩], none) :=
  claim_C10 ⟨false, false, true, true⟩ ['a', 'b'] ⟨1, 0⟩ rfl (by decide)

theorem tokenizer_decimal_run {cfg : TokenizerConfig} {d : Char} {ds rest : List Char}
    {pos : Position} (hd : is_ascii_digit d = true)
    (hds_head : ∀ c, ds.head? = some c → is_ascii_digit c = true)
    (hds : ∀ c ∈ ds, (rust_is_numeric c || c == '_') = true)
    (hstop : ∀ c, rest.head? = some c → (rust_is_numeric c || c == '_') = false ∧ c ≠ '.' ∧
      (d = '0' ∧ ds = [] → c ≠ 'b' ∧ c ≠ 'x')) :
    tokenizer_next cfg (d :: (ds ++ rest)) pos
      = .ok (some ⟨⟨pos, advanceList pos (d :: ds)⟩, .Atom (.Integral ⟨.Decimal, d :: ds⟩)⟩,
             rest, advanceList pos (d :: ds)) := by
  obtain ⟨-, hws, -⟩ := digit_char_facts hd
  cases ds with
  | nil =>
    simp only [List.nil_append]
    rw [tokenizer_next_step (skip_whitespace_not_ws hws), next_cont_digit hd]
    rw [number_single (fun c hc => (hstop c hc).1) (fun h0 c hc => (hstop c hc).2.2 ⟨h0, rfl⟩)]
    dsimp only
    rw [if_pos rfl]
    cases rest with
    | nil => rfl
    | cons c cs =>
      dsimp only
      rw [if_neg (hstop c rfl).2.1]
      rfl
  | cons d2 ds2 =>
    simp only [List.cons_append]
    rw [tokenizer_next_step (skip_whitespace_not_ws hws), next_cont_digit hd]
    rw [number_run (hds_head d2 rfl) (fun c hc => hds c (by simp [hc]))
      (fun c hc => (hstop c hc).1)]
    dsimp only
    rw [if_pos rfl]
    cases rest with
    | nil => rfl
    | cons c cs =>
      dsimp only
      rw [if_neg (hstop c rfl).2.1]
      rfl

theorem tokenizer_decimal_dot {cfg : TokenizerConfig} {d : Char} {ds fs rest : List Char}
    {pos : Position} (hd : is_ascii_digit d = true)
    (hds_head : ∀ c, ds.head? = some c → is_ascii_digit c = true)
    (hds : ∀ c ∈ ds, (rust_is_numeric c || c == '_') = true)
    (hfs : ∀ c ∈ fs, is_ascii_digit c = true)
    (hstop : ∀ c, rest.head? = some c → is_ascii_digit c = false) :
    tokenizer_next cfg (d :: (ds ++ '.' :: (fs ++ rest))) pos
      = .ok (some ⟨⟨pos, advanceList pos ((d :: ds) ++ '.' :: fs)⟩,
             .Atom (.Decimal ⟨d :: ds, fs⟩)⟩,
             rest, advanceList pos ((d :: ds) ++ '.' :: fs)) := by
  obtain ⟨-, hws, -⟩ := digit_char_facts hd
  have hdotstop : ∀ c, ('.' :: (fs ++ rest)).head? = some c →
      (rust_is_numeric c || c == '_') = false := by
    intro c hc
    simp only [List.head?_cons, Option.some.injEq] at hc
    subst hc
    rfl
  have hfr : ∀ p : Position, skip_while is_ascii_digit (fs ++ rest) p
      = (fs, rest, advanceList p fs) := fun p => skip_while_full p hfs hstop
  cases ds with
  | nil =>
    simp only [List.nil_append]
    rw [tokenizer_next_step (skip_whitespace_not_ws hws), next_cont_digit hd]
    rw [number_single hdotstop (fun _ c hc => by
      simp only [List.head?_cons, Option.some.injEq] at hc
      subst hc
      exact ⟨by decide, by decide⟩)]
    dsimp only
    rw [if_pos rfl, if_pos rfl, hfr _]
    rfl
  | cons d2 ds2 =>
    simp only [List.cons_append]
    rw [tokenizer_next_step (skip_whitespace_not_ws hws), next_cont_digit hd]
    rw [number_run (hds_head d2 rfl) (fun c hc => hds c (by simp [hc])) hdotstop]
    dsimp only
    rw [if_pos rfl, if_pos rfl, hfr _]
    simp [advanceList_cons, advanceList_append, Token.is_comment]

theorem tokenizer_hex_prefix {cfg : TokenizerConfig} {hs rest : List Char} {pos : Position}
    (hhs : ∀ c ∈ hs, (is_ascii_hexdigit c || c == '_') = true)
    (hstop : ∀ c, rest.head? = some c → (is_ascii_hexdigit c || c == '_') = false) :
    tokenizer_next cfg ('0' :: 'x' :: (hs ++ rest)) pos
      = .ok (some ⟨⟨pos, advanceList pos ('0' :: 'x' :: hs)⟩,
             .Atom (.Integral ⟨.Hexadecimal, hs⟩)⟩,
             rest, advanceList pos ('0' :: 'x' :: hs)) := by
  rw [tokenizer_next_step (skip_whitespace_not_ws (c := '0') rfl), next_cont_digit (by decide)]
  rw [number]
  rw [if_pos rfl, if_neg (by decide : ¬('x' : Char) = 'b'), if_pos rfl]
  rw [skip_while_full (f := fun c => is_ascii_hexdigit c || c == '_') _ hhs hstop]
  dsimp only
  rw [if_neg (by decide : ¬ANumBase.Hexadecimal = ANumBase.Decimal)]
  rfl

theorem tokenizer_bin_prefix {cfg : TokenizerConfig} {bs rest : List Char} {pos : Position}
    (hbs : ∀ c ∈ bs, (c == '0' || c == '1' || c == '_') = true)
    (hstop : ∀ c, rest.head? = some c → (c == '0' || c == '1' || c == '_') = false) :
    tokenizer_next cfg ('0' :: 'b' :: (bs ++ rest)) pos
      = .ok (some ⟨⟨pos, advanceList pos ('0' :: 'b' :: bs)⟩,
             .Atom (.Integral ⟨.Binary, bs⟩)⟩,
             rest, advanceList pos ('0' :: 'b' :: bs)) := by
  rw [tokenizer_next_step (skip_whitespace_not_ws (c := '0') rfl), next_cont_digit (by decide)]
  rw [number]
  rw [if_pos rfl, if_pos rfl]
  rw [skip_while_full (f := fun c => c == '0' || c == '1' || c == '_') _ hbs hstop]
  dsimp only
  rw [if_neg (by decide : ¬ANumBase.Binary = ANumBase.Decimal)]
  rfl

/-- C4: after a decimal-base integral literal, a following `.` is
consumed together with a possibly empty run of ASCII digits, producing a
Decimal atom whose raw integral text is the scanned literal and whose
raw fractional text is that run; with no following `.` the Integral atom
stands unchanged; hexadecimal and binary literals are never re-tagged as
Decimal even when a `.` follows; and `1.` tokenizes to a Decimal atom
with integral `1` and empty fractional. -/
theorem claim_C4 (cfg : TokenizerConfig) (d : Char) (ds fs rest rest2 hs bs : List Char)
    (pos : Position) (hd : is_ascii_digit d = true)
    (hds_head : ∀ c, ds.head? = some c → is_ascii_digit c = true)
    (hds : ∀ c ∈ ds, (rust_is_numeric c || c == '_') = true)
    (hfs : ∀ c ∈ fs, is_ascii_digit c = true)
    (hstop : ∀ c, rest.head? = some c → is_ascii_digit c = false)
    (hstop2 : ∀ c, rest2.head? = some c → (rust_is_numeric c || c == '_') = false ∧ c ≠ '.' ∧
      (d = '0' ∧ ds = [] → c ≠ 'b' ∧ c ≠ 'x'))
    (hhs : ∀ c ∈ hs, (is_ascii_hexdigit c || c == '_') = true)
    (hbs : ∀ c ∈ bs, (c == '0' || c == '1' || c == '_') = true) :
    tokenizer_next cfg (d :: (ds ++ '.' :: (fs ++ rest))) pos
      = .ok (some ⟨⟨pos, advanceList pos ((d :: ds) ++ '.' :: fs)⟩,
             .Atom (.Decimal ⟨d :: ds, fs⟩)⟩,
             rest, advanceList pos ((d :: ds) ++ '.' :: fs)) ∧
    tokenizer_next cfg (d :: (ds ++ rest2)) pos
      = .ok (some ⟨⟨pos, advanceList pos (d :: ds)⟩, .Atom (.Integral ⟨.Decimal, d :: ds⟩)⟩,
             rest2, advanceList pos (d :: ds)) ∧
    tokenizer_next cfg ('0' :: 'x' :: (hs ++ '.' :: rest))  pos
      = .ok (some ⟨⟨pos, advanceList pos ('0' :: 'x' :: hs)⟩,
             .Atom (.Integral ⟨.Hexadecimal, hs⟩)⟩,
             '.' :: rest, advanceList pos ('0' :: 'x' :: hs)) ∧
    tokenizer_next cfg ('0' :: 'b' :: (bs ++ '.' :: rest)) pos
      = .ok (some ⟨⟨pos, advanceList pos ('0' :: 'b' :: bs)⟩,
             .Atom (.Integral ⟨.Binary, bs⟩)⟩,
             '.' :: rest, advanceList pos ('0' :: 'b' :: bs)) ∧
    token_stream TokenizerConfig.default ['1', '.'] Position.default
      = ([⟨⟨⟨1, 0⟩, ⟨1, 2⟩⟩, .Atom (.Decimal ⟨['1'], []⟩)⟩], none) ∧
    ADecimal.integral ⟨['1'], []⟩ = ['1'] ∧ ADecimal.fractional ⟨['1'], []⟩ = [] := by
  refine ⟨tokenizer_decimal_dot hd hds_head hds hfs hstop,
    tokenizer_decimal_run hd hds_head hds hstop2, ?_, ?_, rfl, rfl, rfl⟩
  · exact tokenizer_hex_prefix hhs (by
      intro c hc
      simp only [List.head?_cons, Option.some.injEq] at hc
      subst hc
      rfl)
  · exact tokenizer_bin_prefix hbs (by
      intro c hc
      simp only [List.head?_cons, Option.some.injEq] at hc
      subst hc
      rfl)

/-- C4 witness: the theorem applied at the concrete decimal literal
`12.5` followed by a space, the underscore-bearing literal `1_0` cut at
the underscore, and the prefixed literals `0xa.` and `0b1.`. -/
theorem claim_C4_witness :
    tokenizer_next TokenizerConfig.default ('1' :: (['2'] ++ '.' :: (['5'] ++ [' ']))) ⟨1, 0⟩
      = .ok (some ⟨⟨⟨1, 0⟩, advanceList ⟨1, 0⟩ (('1' :: ['2']) ++ '.' :: ['5'])⟩,
             .Atom (.Decimal ⟨'1' :: ['2'], ['5']⟩)⟩,
             [' '], advanceList ⟨1, 0⟩ (('1' :: ['2']) ++ '.' :: ['5'])) ∧
    tokenizer_next TokenizerConfig.default ('1' :: (['2'] ++ [' '])) ⟨1, 0⟩
      = .ok (some ⟨⟨⟨1, 0⟩, advanceList ⟨1, 0⟩ ('1' :: ['2'])⟩,
             .Atom (.Integral ⟨.Decimal, '1' :: ['2']⟩)⟩,
             [' '], advanceList ⟨1, 0⟩ ('1' :: ['2'])) ∧
    tokenizer_next TokenizerConfig.default ('0' :: 'x' :: (['a'] ++ '.' :: [' '])) ⟨1, 0⟩
      = .ok (some ⟨⟨⟨1, 0⟩, advanceList ⟨1, 0⟩ ('0' :: 'x' :: ['a'])⟩,
             .Atom (.Integral ⟨.Hexadecimal, ['a']⟩)⟩,
             '.' :: [' '], advanceList ⟨1, 0⟩ ('0' :: 'x' :: ['a'])) ∧
    tokenizer_next TokenizerConfig.default ('0' :: 'b' :: (['1'] ++ '.' :: [' '])) ⟨1, 0⟩
      = .ok (some ⟨⟨⟨1, 0⟩, advanceList ⟨1, 0⟩ ('0' :: 'b' :: ['1'])⟩,
             .Atom (.Integral ⟨.Binary, ['1']⟩)⟩,
             '.' :: [' '], advanceList ⟨1, 0⟩ ('0' :: 'b' :: ['1'])) ∧
    token_stream TokenizerConfig.default ['1', '.'] Position.default
      = ([⟨⟨⟨1, 0⟩, ⟨1, 2⟩⟩, .Atom (.Decimal ⟨['1'], []⟩)⟩], none) ∧
    ADecimal.integral ⟨['1'], []⟩ = ['1'] ∧ ADecimal.fractional ⟨['1'], []⟩ = [] := by
  have hund : ∀ c, ([' '] : List Char).head? = some c →
      (rust_is_numeric c || c == '_') = false ∧ c ≠ '.' ∧
      (('1' : Char) = '0' ∧ (['2'] : List Char) = [] → c ≠ 'b' ∧ c ≠ 'x') := by
    intro c hc
    simp only [List.head?_cons, Option.some.injEq] at hc
    subst hc
    exact ⟨by decide, by decide, fun h => absurd h.1 (by decide)⟩
  exact claim_C4 TokenizerConfig.default '1' ['2'] ['5'] [' '] [' '] ['a'] ['1'] ⟨1, 0⟩
    (by decide) (by intro c hc; simp only [List.head?_cons, Option.some.injEq] at hc; subst hc; decide)
    (by intro c hc; simp only [List.mem_singleton] at hc; subst hc; decide)
    (by intro c hc; simp only [List.mem_singleton] at hc; subst hc; decide)
    (by intro c hc; simp only [List.head?_cons, Option.some.injEq] at hc; subst hc; decide)
    hund
    (by intro c hc; simp only [List.mem_singleton] at hc; subst hc; decide)
    (by intro c hc; simp only [List.mem_singleton] at hc; subst hc; decide)

/-- C5 counterexample: the input `1_0` is a single run of decimal
digits interleaved with a `_` separator, yet the tokenizer produces two
tokens — the Integral `1` followed by the identifier `_0` — because the
digit run only continues past the second character when that character
is itself an ASCII digit.  This refutes the claim that every such run
produces one Integral atom. -/
theorem claim_C5_counterexample :
    (token_stream TokenizerConfig.default ['1', '_', '0'] Position.default).1
      = [⟨⟨⟨1, 0⟩, ⟨1, 1⟩⟩, .Atom (.Integral ⟨.Decimal, ['1']⟩)⟩,
         ⟨⟨⟨1, 1⟩, ⟨1, 3⟩⟩, .Atom (.Ident ['_', '0'])⟩] ∧
    (token_stream TokenizerConfig.default ['1', '_', '0'] Position.default).1.length ≠ 1 :=
  ⟨rfl, by decide⟩

/-- C5 (amended): for a run of decimal digits possibly interleaved with
`_` separators in which the second character, when present, is a digit
(an underscore in second position ends the literal after its first
digit), the tokenizer produces exactly one Integral atom of base
Decimal covering the whole run, and `to_u64` — which parses the raw
text with the underscores removed in radix 10 — returns exactly the
numeric value of the literal provided that value fits in 64 bits. -/
theorem claim_C5 (d : Char) (ds : List Char) (pos : Position)
    (hd : is_ascii_digit d = true)
    (hds : ∀ c ∈ ds, is_ascii_digit c = true ∨ c = '_')
    (hhead : ∀ c, ds.head? = some c → is_ascii_digit c = true) :
    token_stream TokenizerConfig.default (d :: ds) pos
      = ([⟨⟨pos, advanceList pos (d :: ds)⟩, .Atom (.Integral ⟨.Decimal, d :: ds⟩)⟩], none) ∧
    (decimal_value (ANum.digits ⟨.Decimal, d :: ds⟩) < 2 ^ 64 →
      ANum.to_u64 ⟨.Decimal, d :: ds⟩
        = some (decimal_value (ANum.digits ⟨.Decimal, d :: ds⟩))) := by
  constructor
  · have hT : tokenizer_next TokenizerConfig.default (d :: (ds ++ [])) pos
        = .ok (some ⟨⟨pos, advanceList pos (d :: ds)⟩,
               .Atom (.Integral ⟨.Decimal, d :: ds⟩)⟩,
               [], advanceList pos (d :: ds)) :=
      tokenizer_decimal_run hd hhead (fun c hc => digit_underscore_numeric (hds c hc))
        (fun c hc => by simp at hc)
    rw [List.append_nil] at hT
    rw [token_stream_tok_some hT]
    rw [show token_stream TokenizerConfig.default [] (advanceList pos (d :: ds)) = ([], none)
        from rfl]
  · intro hb
    have hd9 : d ≠ '_' := (digit_char_facts hd).2.2.2.2.2.2.2.2.1
    have hd' : (d != '_') = true := bne_iff_ne.mpr hd9
    have hne : ANum.digits ⟨.Decimal, d :: ds⟩ ≠ [] := by
      show ((d :: ds).filter (fun c => c != '_')) ≠ []
      rw [List.filter_cons_of_pos (p := fun c => c != '_') (a := d) hd']
      simp
    have hall : ∀ c ∈ ANum.digits ⟨.Decimal, d :: ds⟩, is_ascii_digit c = true := by
      intro c hc
      obtain ⟨hmem, hne'⟩ := List.mem_filter.mp hc
      rcases List.mem_cons.mp hmem with rfl | hmem2
      · exact hd
      · rcases hds c hmem2 with h | rfl
        · exact h
        · exact absurd hne' (by decide)
    exact from_str_radix_digits hne hall hb

/-- C5 witness: the amended claim applied to the concrete run `10_2`,
whose single Integral atom converts with `to_u64` to 102. -/
theorem claim_C5_witness :
    token_stream TokenizerConfig.default ('1' :: ['0', '_', '2']) ⟨1, 0⟩
      = ([⟨⟨⟨1, 0⟩, advanceList ⟨1, 0⟩ ('1' :: ['0', '_', '2'])⟩,
          .Atom (.Integral ⟨.Decimal, '1' :: ['0', '_', '2']⟩)⟩], none) ∧
    ANum.to_u64 ⟨.Decimal, '1' :: ['0', '_', '2']⟩
      = some (decimal_value (ANum.digits ⟨.Decimal, '1' :: ['0', '_', '2']⟩)) := by
  have h := claim_C5 '1' ['0', '_', '2'] ⟨1, 0⟩ (by decide) (by decide)
    (by
      intro c hc
      simp only [List.head?_cons, Option.some.injEq] at hc
      subst hc
      decide)
  exact ⟨h.1, h.2 (by decide)⟩

/-- C8 counterexample: the input consisting of the ASCII digit `1`
immediately followed by the Arabic-Indic digit (code point 1635, a
Unicode-numeric, non-ASCII character) does not lex as a single Integral
atom containing that character: the token is the Integral `1` and the
non-ASCII character is left unconsumed, because the continuation scan
only starts when the second character is an ASCII digit.  This refutes
the claim's example. -/
theorem claim_C8_counterexample :
    tokenizer_next TokenizerConfig.default ['1', Char.ofNat 1635] ⟨1, 0⟩
      = .ok (some ⟨⟨⟨1, 0⟩, ⟨1, 1⟩⟩, .Atom (.Integral ⟨.Decimal, ['1']⟩)⟩,
             [Char.ofNat 1635], ⟨1, 1⟩) ∧
    rust_is_numeric (Char.ofNat 1635) = true ∧
    is_ascii_digit (Char.ofNat 1635) = false :=
  ⟨rfl, rfl, rfl⟩

/-- C8 (amended): once the first two characters of a number are ASCII
digits, the continuation scan accepts any Unicode numeric character
(`char::is_numeric`) or `_`: the whole run lexes as a single Integral
atom of base Decimal whose raw text contains every such character, and
when the run contains a numeric character that is not an ASCII digit
nor `_`, the `to_u64` conversion fails. -/
theorem claim_C8 (d1 d2 : Char) (cs2 rest : List Char) (pos : Position)
    (h1 : is_ascii_digit d1 = true) (h2 : is_ascii_digit d2 = true)
    (hcs : ∀ c ∈ cs2, (rust_is_numeric c || c == '_') = true)
    (hstop : ∀ c, rest.head? = some c → (rust_is_numeric c || c == '_') = false ∧ c ≠ '.') :
    tokenizer_next TokenizerConfig.default (d1 :: ((d2 :: cs2) ++ rest)) pos
      = .ok (some ⟨⟨pos, advanceList pos (d1 :: d2 :: cs2)⟩,
             .Atom (.Integral ⟨.Decimal, d1 :: d2 :: cs2⟩)⟩,
             rest, advanceList pos (d1 :: d2 :: cs2)) ∧
    ((∃ c ∈ cs2, rust_is_numeric c = true ∧ is_ascii_digit c = false ∧ c ≠ '_') →
      ANum.to_u64 ⟨.Decimal, d1 :: d2 :: cs2⟩ = none) := by
  constructor
  · exact tokenizer_decimal_run h1
      (fun c hc => by
        simp only [List.head?_cons, Option.some.injEq] at hc
        subst hc
        exact h2)
      (fun c hc => by
        rcases List.mem_cons.mp hc with rfl | hc2
        · exact digit_underscore_numeric (Or.inl h2)
        · exact hcs c hc2)
      (fun c hc => ⟨(hstop c hc).1, (hstop c hc).2, fun hcontra => absurd hcontra.2 (by simp)⟩)
  · rintro ⟨c, hcmem, -, hcnd, hcne⟩
    have hc10 : char_to_digit c 10 = none := char_to_digit_not_digit hcnd
    have hd1' : (d1 != '_') = true := bne_iff_ne.mpr (digit_char_facts h1).2.2.2.2.2.2.2.2.1
    have hd2' : (d2 != '_') = true := bne_iff_ne.mpr (digit_char_facts h2).2.2.2.2.2.2.2.2.1
    have hdig : ANum.digits ⟨.Decimal, d1 :: d2 :: cs2⟩
        = d1 :: d2 :: cs2.filter (fun x => x != '_') := by
      show ((d1 :: d2 :: cs2).filter (fun x => x != '_')) = _
      rw [List.filter_cons_of_pos (p := fun x => x != '_') (a := d1) hd1',
        List.filter_cons_of_pos (p := fun x => x != '_') (a := d2) hd2']
    have hmem : c ∈ d1 :: d2 :: cs2.filter (fun x => x != '_') := by
      simp only [List.mem_cons, List.mem_filter]
      right
      right
      exact ⟨hcmem, bne_iff_ne.mpr hcne⟩
    show from_str_radix (2 ^ 64) 10 (ANum.digits ⟨.Decimal, d1 :: d2 :: cs2⟩) = none
    rw [hdig]
    exact from_str_radix_go_none hc10 hmem

/-- C8 witness: the amended claim applied to the run `12¾` — two ASCII
digits followed by the vulgar fraction U+00BE, a character of general
category No — which lexes as one Integral atom whose raw text carries
the non-ASCII numeric character, and whose `to_u64` conversion fails. -/
theorem claim_C8_witness :
    tokenizer_next TokenizerConfig.default ('1' :: (('2' :: [Char.ofNat 190]) ++ [])) ⟨1, 0⟩
      = .ok (some ⟨⟨⟨1, 0⟩, advanceList ⟨1, 0⟩ ('1' :: '2' :: [Char.ofNat 190])⟩,
             .Atom (.Integral ⟨.Decimal, '1' :: '2' :: [Char.ofNat 190]⟩)⟩,
             [], advanceList ⟨1, 0⟩ ('1' :: '2' :: [Char.ofNat 190])) ∧
    ANum.to_u64 ⟨.Decimal, '1' :: '2' :: [Char.ofNat 190]⟩ = none := by
  have h := claim_C8 '1' '2' [Char.ofNat 190] [] ⟨1, 0⟩ (by decide) (by decide)
    (by decide) (by intro c hc; simp at hc)
  exact ⟨h.1, h.2 ⟨Char.ofNat 190, by simp, by decide, by decide, by decide⟩⟩

theorem next_cont_filter_indep (cfg : TokenizerConfig) (b : Bool) (ts : Position) (lc : Char)
    (l : List Char) (pos : Position) :
    next_cont { cfg with filter_comment := b } ts lc l pos = next_cont cfg ts lc l pos := rfl

theorem token_stream_congr {cfg : TokenizerConfig} {l l2 : List Char} {pos pos2 : Position}
    (h : tokenizer_next cfg l pos = tokenizer_next cfg l2 pos2) :
    token_stream cfg l pos = token_stream cfg l2 pos2 := by
  rcases hT : tokenizer_next cfg l2 pos2 with e | ⟨o, r, p⟩
  · rw [token_stream_tok_error (h.trans hT), token_stream_tok_error hT]
  · cases o with
    | none => rw [token_stream_tok_none (h.trans hT), token_stream_tok_none hT]
    | some t => rw [token_stream_tok_some (h.trans hT), token_stream_tok_some hT]

theorem tokenizer_next_filter_rel (cfg : TokenizerConfig) (l : List Char) (pos : Position) :
    tokenizer_next { cfg with filter_comment := true } l pos =
      (match tokenizer_next { cfg with filter_comment := false } l pos with
       | .ok (some t, r, p) =>
         if t.inner.is_comment then tokenizer_next { cfg with filter_comment := true } r p
         else .ok (some t, r, p)
       | x => x) := by
  rcases hW : skip_whitespace l pos with ⟨l1, p1⟩
  cases l1 with
  | nil =>
    rw [tokenizer_next_ws_nil hW, tokenizer_next_ws_nil hW]
  | cons c cs =>
    rw [tokenizer_next_step hW, tokenizer_next_step hW,
      next_cont_filter_indep cfg true, next_cont_filter_indep cfg false]
    rcases hC : next_cont cfg p1 c cs (p1.advance c) with e | ⟨tok, r, p2⟩
    · rfl
    · dsimp only
      simp only [Bool.and_true, Bool.and_false]
      rw [if_neg Bool.false_ne_true]

/-- C6: the token stream produced with comment filtering enabled equals
the token stream produced with filtering disabled from which all
Comment tokens are deleted: the surviving tokens are identical, spans
included, and the final error, if any, is the same. -/
theorem claim_C6 (cfg : TokenizerConfig) (l : List Char) (pos : Position) :
    token_stream { cfg with filter_comment := true } l pos
      = ((token_stream { cfg with filter_comment := false } l pos).1.filter
          (fun t => !t.inner.is_comment),
         (token_stream { cfg with filter_comment := false } l pos).2) := by
  suffices H : ∀ (n : Nat) (l : List Char) (pos : Position), l.length ≤ n →
      token_stream { cfg with filter_comment := true } l pos
        = ((token_stream { cfg with filter_comment := false } l pos).1.filter
            (fun t => !t.inner.is_comment),
           (token_stream { cfg with filter_comment := false } l pos).2) by
    exact H l.length l pos le_rfl
  intro n
  induction n with
  | zero =>
    intro l pos hlen
    have hl : l = [] := List.eq_nil_of_length_eq_zero (Nat.le_zero.mp hlen)
    subst hl
    rfl
  | succ n ih =>
    intro l pos hlen
    have hrel := tokenizer_next_filter_rel cfg l pos
    rcases hF : tokenizer_next { cfg with filter_comment := false } l pos with e | ⟨o, r, p⟩
    · rw [hF] at hrel
      rw [token_stream_tok_error hrel, token_stream_tok_error hF]
      rfl
    · cases o with
      | none =>
        rw [hF] at hrel
        rw [token_stream_tok_none hrel, token_stream_tok_none hF]
        rfl
      | some t =>
        rw [hF] at hrel
        dsimp only at hrel
        have hlen2 : r.length < l.length := (tokenizer_next_some hF).2.2.2
        rw [token_stream_tok_some hF]
        by_cases hc : t.inner.is_comment = true
        · rw [if_pos hc] at hrel
          rw [token_stream_congr hrel, ih r p (by omega)]
          simp [List.filter_cons, hc]
        · rw [if_neg hc] at hrel
          rw [token_stream_tok_some hrel, ih r p (by omega)]
          have hcf : t.inner.is_comment = false := Bool.not_eq_true _ ▸ hc
          simp [List.filter_cons, Bool.not_eq_true t.inner.is_comment ▸ hc]

theorem parser_loop_go_spans {cfg : TokenizerConfig} : ∀ {fuel : Nat} {l r : List Char}
    {pos p : Position} {out : List Frame} {el : Spanned Element},
    (∀ f ∈ out, posLe (f.2.1).start pos ∧ ∀ e ∈ f.2.2, ElementSpansWF e) →
    parser_loop_go cfg fuel l pos out = .ok (some el, r, p) →
    ElementSpansWF el := by
  intro fuel
  induction fuel with
  | zero =>
    intro l r pos p out el hinv h
    simp only [parser_loop_go, Except.ok.injEq, Prod.mk.injEq] at h
    exact absurd h.1 (by simp)
  | succ fuel ih =>
    intro l r pos p out el hinv h
    rcases hT : tokenizer_next cfg l pos with e | ⟨o, r0, p0⟩ <;> rw [parser_loop_go, hT] at h
    · exact absurd h (by simp)
    · cases o with
      | none =>
        dsimp only at h
        cases out with
        | nil =>
          simp only [Except.ok.injEq, Prod.mk.injEq] at h
          exact absurd h.1 (by simp)
        | cons f rest =>
          rcases f with ⟨g1, sp1, els1⟩
          exact absurd h (by simp)
      | some tok =>
        obtain ⟨hstop, hple1, hple2, hlen⟩ := tokenizer_next_some hT
        have hspan : posLe tok.span.start tok.span.stop := by
          rw [hstop]
          exact hple2
        have hinv0 : ∀ f ∈ out, posLe (f.2.1).start p0 ∧ ∀ e ∈ f.2.2, ElementSpansWF e :=
          fun f hf => ⟨posLe_trans (hinv f hf).1 (posLe_trans hple1 hple2), (hinv f hf).2⟩
        dsimp only at h
        rcases hI : tok.inner with g | g | cm | a <;> rw [hI] at h
        · refine ih (fun f hf => ?_) h
          rcases List.mem_cons.mp hf with rfl | hf2
          · exact ⟨hple2, by simp⟩
          · exact hinv0 f hf2
        · cases out with
          | nil => exact absurd h (by simp)
          | cons f rest =>
            rcases f with ⟨ig, isp, iels⟩
            dsimp only at h
            by_cases hg : ig = g
            · rw [if_pos hg] at h
              have hmemf : ((ig, isp, iels) : Frame) ∈ (ig, isp, iels) :: rest := by simp
              have hinner : ElementSpansWF ⟨isp.extend tok.span, .Group g iels⟩ := by
                refine ElementSpansWF.group _ _ _ ?_ ?_
                · show posLe isp.start tok.span.stop
                  rw [hstop]
                  exact posLe_trans (hinv _ hmemf).1 (posLe_trans hple1 hple2)
                · exact (hinv _ hmemf).2
              cases rest with
              | nil =>
                simp only [Except.ok.injEq, Prod.mk.injEq, Option.some.injEq] at h
                rw [← h.1]
                exact hinner
              | cons f2 rest2 =>
                rcases f2 with ⟨g2, sp2, els2⟩
                refine ih (fun f hf => ?_) h
                rcases List.mem_cons.mp hf with rfl | hf2
                · refine ⟨(hinv0 (g2, sp2, els2) (by simp)).1, ?_⟩
                  intro e he
                  rcases List.mem_append.mp he with he1 | he1
                  · exact (hinv0 (g2, sp2, els2) (by simp)).2 e he1
                  · simp only [List.mem_singleton] at he1
                    subst he1
                    exact hinner
                · exact hinv0 f (by simp [hf2])
            · rw [if_neg hg] at h
              exact absurd h (by simp)
        · cases out with
          | nil =>
            simp only [Except.ok.injEq, Prod.mk.injEq, Option.some.injEq] at h
            rw [← h.1]
            exact ElementSpansWF.comment _ _ hspan
          | cons f rest =>
            rcases f with ⟨g1, sp1, els1⟩
            refine ih (fun f hf => ?_) h
            rcases List.mem_cons.mp hf with rfl | hf2
            · refine ⟨(hinv0 (g1, sp1, els1) (by simp)).1, ?_⟩
              intro e he
              rcases List.mem_append.mp he with he1 | he1
              · exact (hinv0 (g1, sp1, els1) (by simp)).2 e he1
              · simp only [List.mem_singleton] at he1
                subst he1
                exact ElementSpansWF.comment _ _ hspan
            · exact hinv0 f (by simp [hf2])
        · cases out with
          | nil =>
            simp only [Except.ok.injEq, Prod.mk.injEq, Option.some.injEq] at h
            rw [← h.1]
            exact ElementSpansWF.atom _ _ hspan
          | cons f rest =>
            rcases f with ⟨g1, sp1, els1⟩
            refine ih (fun f hf => ?_) h
            rcases List.mem_cons.mp hf with rfl | hf2
            · refine ⟨(hinv0 (g1, sp1, els1) (by simp)).1, ?_⟩
              intro e he
              rcases List.mem_append.mp he with he1 | he1
              · exact (hinv0 (g1, sp1, els1) (by simp)).2 e he1
              · simp only [List.mem_singleton] at he1
                subst he1
                exact ElementSpansWF.atom _ _ hspan
            · exact hinv0 f (by simp [hf2])

/-- C7: every token produced by the tokenizer carries a span whose
start does not exceed its end in the lexicographic order on (line,
col), and every element produced by the parser carries such spans
throughout its tree. -/
theorem claim_C7 (cfg : TokenizerConfig) (l : List Char) (pos : Position) :
    (∀ (tok : Spanned Token) (r : List Char) (p : Position),
      tokenizer_next cfg l pos = .ok (some tok, r, p) →
      posLe tok.span.start tok.span.stop) ∧
    (∀ (el : Spanned Element) (r : List Char) (p : Position),
      parser_next cfg l pos = .ok (some el, r, p) → ElementSpansWF el) := by
  constructor
  · intro tok r p h
    obtain ⟨hstop, -, hple2, -⟩ := tokenizer_next_some h
    rw [hstop]
    exact hple2
  · intro el r p h
    exact parser_loop_go_spans (by simp) h

/-- C7 witness: the claim applied to the input `(a)`: the first token's
span runs from 1:0 to 1:1, and the parsed group element's spans are all
well formed. -/
theorem claim_C7_witness :
    posLe (⟨1, 0⟩ : Position) ⟨1, 1⟩ ∧
    ElementSpansWF ⟨⟨⟨1, 0⟩, ⟨1, 3⟩⟩,
      .Group .Paren [⟨⟨⟨1, 1⟩, ⟨1, 2⟩⟩, .Atom (.Ident ['a'])⟩]⟩ := by
  have h := claim_C7 TokenizerConfig.default ['(', 'a', ')'] ⟨1, 0⟩
  exact ⟨h.1 ⟨⟨⟨1, 0⟩, ⟨1, 1⟩⟩, .Left .Paren⟩ ['a', ')'] ⟨1, 1⟩ rfl,
         h.2 ⟨⟨⟨1, 0⟩, ⟨1, 3⟩⟩, .Group .Paren [⟨⟨⟨1, 1⟩, ⟨1, 2⟩⟩, .Atom (.Ident ['a'])⟩]⟩
           [] ⟨1, 3⟩ rfl⟩

theorem tokenizer_delim_open (k : GroupKind) (rest : List Char) (pos : Position) :
    tokenizer_next TokenizerConfig.default (openChar k :: rest) pos
      = .ok (some ⟨⟨pos, pos.advance (openChar k)⟩, .Left k⟩, rest, pos.advance (openChar k)) := by
  cases k <;> rfl

theorem tokenizer_delim_close (k : GroupKind) (rest : List Char) (pos : Position) :
    tokenizer_next TokenizerConfig.default (closeChar k :: rest) pos
      = .ok (some ⟨⟨pos, pos.advance (closeChar k)⟩, .Right k⟩, rest, pos.advance (closeChar k)) := by
  cases k <;> rfl

theorem parser_loop_balanced {w : List Char} (hw : Balanced w) :
    ∀ (rest : List Char) (pos : Position) (k : GroupKind) (sp : Span)
      (els : List (Spanned Element)) (st : List Frame),
    ∃ els2, parser_loop TokenizerConfig.default (w ++ rest) pos ((k, sp, els) :: st)
      = parser_loop TokenizerConfig.default rest (advanceList pos w) ((k, sp, els2) :: st) := by
  induction hw with
  | nil =>
    intro rest pos k sp els st
    exact ⟨els, by rw [List.nil_append, advanceList_nil]⟩
  | grp k2 w1 w2 hw1 hw2 ih1 ih2 =>
    intro rest pos k sp els st
    obtain ⟨els1, hA⟩ := ih1 (closeChar k2 :: (w2 ++ rest)) (pos.advance (openChar k2)) k2
      ⟨pos, pos.advance (openChar k2)⟩ [] ((k, sp, els) :: st)
    obtain ⟨els2, hB⟩ := ih2 rest
      ((advanceList (pos.advance (openChar k2)) w1).advance (closeChar k2)) k sp
      (els ++ [⟨Span.extend ⟨pos, pos.advance (openChar k2)⟩
        ⟨advanceList (pos.advance (openChar k2)) w1,
         (advanceList (pos.advance (openChar k2)) w1).advance (closeChar k2)⟩,
        .Group k2 els1⟩]) st
    refine ⟨els2, ?_⟩
    have hshape : (openChar k2 :: w1 ++ closeChar k2 :: w2) ++ rest
        = openChar k2 :: (w1 ++ (closeChar k2 :: (w2 ++ rest))) := by simp
    rw [hshape,
      parser_loop_tok_some (tokenizer_delim_open k2 (w1 ++ (closeChar k2 :: (w2 ++ rest))) pos)]
    dsimp only
    rw [hA,
      parser_loop_tok_some (tokenizer_delim_close k2 (w2 ++ rest)
        (advanceList (pos.advance (openChar k2)) w1))]
    dsimp only
    rw [if_pos rfl]
    rw [hB]
    simp only [advanceList_cons, advanceList_append]

theorem element_stream_balanced {w : List Char} (hw : Balanced w) :
    ∀ pos : Position, (element_stream TokenizerConfig.default w pos).2 = none ∧
      ∀ e ∈ (element_stream TokenizerConfig.default w pos).1,
        ∃ g els, e.inner = Element.Group g els := by
  induction hw with
  | nil =>
    intro pos
    constructor
    · rfl
    · intro e he
      rw [show element_stream TokenizerConfig.default [] pos = ([], none) from rfl] at he
      exact absurd he (by simp)
  | grp k w1 w2 hw1 hw2 ih1 ih2 =>
    intro pos
    obtain ⟨els1, hA⟩ := parser_loop_balanced hw1 (closeChar k :: w2) (pos.advance (openChar k))
      k ⟨pos, pos.advance (openChar k)⟩ [] []
    have hP : parser_next TokenizerConfig.default (openChar k :: w1 ++ closeChar k :: w2) pos
        = .ok (some ⟨Span.extend ⟨pos, pos.advance (openChar k)⟩
            ⟨advanceList (pos.advance (openChar k)) w1,
             (advanceList (pos.advance (openChar k)) w1).advance (closeChar k)⟩,
            .Group k els1⟩, w2,
            (advanceList (pos.advance (openChar k)) w1).advance (closeChar k)) := by
      show parser_loop TokenizerConfig.default (openChar k :: w1 ++ closeChar k :: w2) pos [] = _
      have hshape : openChar k :: w1 ++ closeChar k :: w2
          = openChar k :: (w1 ++ (closeChar k :: w2)) := by simp
      rw [hshape,
        parser_loop_tok_some (tokenizer_delim_open k (w1 ++ (closeChar k :: w2)) pos)]
      dsimp only
      rw [hA,
        parser_loop_tok_some (tokenizer_delim_close k w2
          (advanceList (pos.advance (openChar k)) w1))]
      dsimp only
      rw [if_pos rfl]
    rw [element_stream_el_some hP]
    constructor
    · exact (ih2 _).1
    · intro e he
      simp only [List.mem_cons] at he
      rcases he with rfl | he2
      · exact ⟨k, els1, rfl⟩
      · exact (ih2 _).2 e he2

/-- C1: for every input consisting only of balanced, correctly-typed
group delimiters (every open matched by a close of the same GroupKind,
properly nested), repeatedly calling Parser::next never returns an
error — in particular no UnbalancedEmpty, UnbalancedMismatch or
UnfinishedGroup — and the stream consists of group elements followed by
a clean end of stream. -/
theorem claim_C1 (w : List Char) (pos : Position) (hw : Balanced w) :
    (element_stream TokenizerConfig.default w pos).2 = none ∧
    ∀ e ∈ (element_stream TokenizerConfig.default w pos).1,
      ∃ g els, e.inner = Element.Group g els :=
  element_stream_balanced hw pos

/-- C1 witness: the claim applied to the concrete balanced input
`([])`. -/
theorem claim_C1_witness :
    (element_stream TokenizerConfig.default ['(', '[', ']', ')'] Position.default).2 = none ∧
    ∀ e ∈ (element_stream TokenizerConfig.default ['(', '[', ']', ')'] Position.default).1,
      ∃ g els, e.inner = Element.Group g els :=
  claim_C1 ['(', '[', ']', ')'] Position.default
    (Balanced.grp .Paren ['[', ']'] [] (Balanced.grp .Bracket [] [] .nil .nil) .nil)

end SExpr